import Mathlib

/-!
Shallow embedding of tinflate.c (tinf - tiny inflate, by Joergen Ibsen) and
proofs about it.  Pointers of the C code become indices into immutable lists:
the source pointer pair (source, sourceEnd) becomes (srcPos, src.length) over
the list src, and the destination triple (dest, destEnd) becomes
(destPos, dest.length) over the list dest, whose length is the capacity the
caller passed in *destLen.  Machine unsigned ints are Nat with explicit
reductions mod 2 ^ 32 where the C value can wrap; the int fields that can be
negative (max_sym, and the decoder accumulators sum and cur) are Int.

A ghost log records every memory access the C code performs (reads of the
source, writes of the destination, and the reads of earlier output done by the
back-reference copy) so that the bounds-safety statements can be made about
the trace of the run.  The log is write-only instrumentation: no definition
reads it.

The unbounded C loops (the symbol loop of a block, the Huffman decode loop,
the run-length loop of the dynamic-tree decoder, and the block loop of
tinf_uncompress) take a fuel argument and return none on exhaustion, together
with the state reached so far.  The bit-refill loop runs at most
ceil(num / 8) <= num iterations, so it is given the counter num, which is
proved sufficient (tinf_refill_eq below recovers the exact C loop equation).
-/

set_option maxHeartbeats 1000000
set_option maxRecDepth 100000

namespace Tinf

/-- Return code TINF_OK of tinf.h (value 0, part of the ABI). -/
def TINF_OK : Int := 0

/-- Return code TINF_DATA_ERROR of tinf.h (value -3). -/
def TINF_DATA_ERROR : Int := -3

/-- Return code TINF_BUF_ERROR of tinf.h (value -5). -/
def TINF_BUF_ERROR : Int := -5

/-- Ghost record of one memory access of tinflate.c.  srcRead i is a read of
source[i]; destWrite i is a write of dest[i]; destRead i cursor is a read of
dest[i] done by the back-reference copy while the write cursor (the next
output position) stood at cursor.  The read index is an Int because the C
expression d->dest[i - offs] can reach below the buffer start if offs is too
large (the code must and does reject that case first). -/
inductive Access where
  | srcRead (i : Nat) : Access
  | destWrite (i : Nat) : Access
  | destRead (i : Int) (cursor : Nat) : Access
deriving DecidableEq

/-- struct tinf_tree: table[16] counts codes per length, trans[288] maps
canonical code order to symbols, max_sym is the largest coded symbol or -1. -/
structure TinfTree where
  table : List Nat
  trans : List Nat
  max_sym : Int
deriving DecidableEq

/-- struct tinf_data.  src and dest are the borrowed buffers; srcPos and
destPos the cursors (C: d->source - source, d->dest - dest); the source end
sentinel is src.length and the destination capacity is dest.length.  log is
the ghost access trace (most recent first). -/
structure TinfData where
  src : List Nat
  srcPos : Nat
  tag : Nat
  bitcount : Nat
  overflow : Bool
  dest : List Nat
  destPos : Nat
  destLen : Nat
  ltree : TinfTree
  dtree : TinfTree
  log : List Access
deriving DecidableEq

/-- Extra bits for length codes 0..29 (static table length_bits[30] in
tinf_inflate_block_data; entry 29 is the 127 guard). -/
def length_bits : List Nat :=
  [0, 0, 0, 0, 0, 0, 0, 0, 1, 1, 1, 1, 2, 2, 2] ++
  [2, 3, 3, 3, 3, 4, 4, 4, 4, 5, 5, 5, 5, 0, 127]

/-- Base lengths for length codes 0..29 (static table length_base[30]). -/
def length_base : List Nat :=
  [3, 4, 5, 6, 7, 8, 9, 10, 11, 13, 15, 17, 19, 23, 27] ++
  [31, 35, 43, 51, 59, 67, 83, 99, 115, 131, 163, 195, 227, 258, 0]

/-- Extra bits for distance codes 0..29 (static table dist_bits[30]). -/
def dist_bits : List Nat :=
  [0, 0, 0, 0, 1, 1, 2, 2, 3, 3, 4, 4, 5, 5, 6] ++
  [6, 7, 7, 8, 8, 9, 9, 10, 10, 11, 11, 12, 12, 13, 13]

/-- Base offsets for distance codes 0..29 (static table dist_base[30]). -/
def dist_base : List Nat :=
  [1, 2, 3, 4, 5, 7, 9, 13, 17, 25, 33, 49, 65, 97, 129] ++
  [193, 257, 385, 513, 769, 1025, 1537, 2049, 3073, 4097, 6145, 8193, 12289, 16385, 24577]

/-- Ordering of the code length code lengths (static table clcidx[19] in
tinf_decode_trees). -/
def clcidx : List Nat :=
  [16, 17, 18, 0, 8, 7, 9, 6, 10, 5,
   11, 4, 12, 3, 13, 2, 14, 1, 15]

/-- read_le16: read a 16-bit little-endian value at source index p, logging
the two byte reads. -/
def read_le16 (d : TinfData) (p : Nat) : Nat × TinfData :=
  (d.src.getD p 0 ||| (d.src.getD (p + 1) 0 <<< 8),
   { d with log := Access.srcRead (p + 1) :: Access.srcRead p :: d.log })

/-- tinf_build_fixed_trees: the hard-coded fixed literal/length tree (lengths
8/9/7/8 for symbols 0-143/144-255/256-279/280-287, max_sym 285) and the fixed
distance tree (all 32 symbols at length 5, max_sym 29).  The C code leaves
dt->trans[32..287] untouched; those entries are never read, and are modelled
as zero. -/
def tinf_build_fixed_trees : TinfTree × TinfTree :=
  ({ table := (((List.replicate 16 0).set 7 24).set 8 152).set 9 112
   , trans :=
       (List.range 24).map (fun i => 256 + i) ++
       (List.range 144).map (fun i => i) ++
       (List.range 8).map (fun i => 280 + i) ++
       (List.range 112).map (fun i => 144 + i)
   , max_sym := 285 },
   { table := (List.replicate 16 0).set 5 32
   , trans := List.range 32 ++ List.replicate 256 0
   , max_sym := 29 })

/-- First loop of tinf_build_tree: clear the count table, tally
t->table[lengths[i]]++ and track max_sym (the last i with lengths[i] != 0,
or -1). -/
def tinf_tally (lengths : List Nat) (num : Nat) : List Nat × Int :=
  (List.range num).foldl
    (fun p i =>
      let l := lengths.getD i 0
      (p.1.set l (p.1.getD l 0 + 1), if l ≠ 0 then (i : Int) else p.2))
    (List.replicate 16 0, -1)

/-- Second loop of tinf_build_tree: compute the offset table for the
distribution sort while checking that no code length holds more codes than
the running capacity max (max starts at 1 and becomes 2 * (max - count) after
each length).  none models the early return TINF_DATA_ERROR. -/
def tinf_build_offs (table : List Nat) : Option (List Nat × Nat × Nat) :=
  (List.range 16).foldl
    (fun acc i =>
      match acc with
      | none => none
      | some (offs, sum, max) =>
        let c := table.getD i 0
        if max < c then none
        else some (offs.set i sum, sum + c, 2 * (max - c)))
    (some (List.replicate 16 0, 0, 1))

/-- Third loop of tinf_build_tree: fill the code-to-symbol table,
t->trans[offs[lengths[i]]++] = i for coded symbols. -/
def tinf_fill_trans (lengths : List Nat) (num : Nat) (trans offs : List Nat) :
    List Nat × List Nat :=
  (List.range num).foldl
    (fun p i =>
      let l := lengths.getD i 0
      if l ≠ 0 then (p.1.set (p.2.getD l 0) i, p.2.set l (p.2.getD l 0 + 1))
      else p)
    (trans, offs)

/-- tinf_build_tree: build a tree from lengths[0..num).  On the error paths
the count table and max_sym have already been stored into the tree, trans is
left as it was; in the one-code special case a second code of length 1
mapping to max_sym + 1 is planted. -/
def tinf_build_tree (t : TinfTree) (lengths : List Nat) (num : Nat) :
    Int × TinfTree :=
  let ty := tinf_tally lengths num
  let table := ty.1.set 0 0
  let maxSym := ty.2
  match tinf_build_offs table with
  | none => (TINF_DATA_ERROR, { t with table := table, max_sym := maxSym })
  | some (_offs, sum, mx) =>
    if (1 < sum ∧ 0 < mx) ∨ (sum = 1 ∧ table.getD 1 0 ≠ 1) then
      (TINF_DATA_ERROR, { t with table := table, max_sym := maxSym })
    else
      let ft := tinf_fill_trans lengths num t.trans _offs
      if sum = 1 then
        (TINF_OK,
         { table := table.set 1 2
         , trans := ft.1.set 1 (maxSym + 1).toNat
         , max_sym := maxSym })
      else
        (TINF_OK, { table := table, trans := ft.1, max_sym := maxSym })

/-- One iteration of the tinf_refill while loop: consume source[srcPos] into
the tag at bit position bitcount, or set the sticky overflow flag if the
source is exhausted; either way bitcount grows by 8.  The shift is reduced
mod 2 ^ 32 because tag is a 32-bit unsigned int in C. -/
def tinf_refill_step (d : TinfData) : TinfData :=
  if d.srcPos ≠ d.src.length then
    { d with
        tag := d.tag ||| (((d.src.getD d.srcPos 0) <<< d.bitcount) % 2 ^ 32)
        srcPos := d.srcPos + 1
        bitcount := d.bitcount + 8
        log := Access.srcRead d.srcPos :: d.log }
  else
    { d with overflow := true, bitcount := d.bitcount + 8 }

/-- The tinf_refill loop, driven by an iteration counter.  Each iteration
adds 8 to bitcount, so num iterations always suffice to reach
bitcount >= num; tinf_refill passes num and tinf_refill_eq proves the
resulting function satisfies the exact loop equation of the C code. -/
def tinf_refill_go (num : Nat) : TinfData → Nat → TinfData
  | d, 0 => d
  | d, k + 1 =>
    if d.bitcount < num then tinf_refill_go num (tinf_refill_step d) k else d

/-- tinf_refill: read source bytes until at least num bits are available. -/
def tinf_refill (d : TinfData) (num : Nat) : TinfData :=
  tinf_refill_go num d num

/-- tinf_getbits_no_refill: take the low num bits of the tag. -/
def tinf_getbits_no_refill (d : TinfData) (num : Nat) : Nat × TinfData :=
  (d.tag &&& (2 ^ num - 1),
   { d with tag := d.tag >>> num, bitcount := d.bitcount - num })

/-- tinf_getbits: refill, then extract num bits. -/
def tinf_getbits (d : TinfData) (num : Nat) : Nat × TinfData :=
  tinf_getbits_no_refill (tinf_refill d num) num

/-- tinf_getbits_base: base + getbits(num), reading no bits when num = 0. -/
def tinf_getbits_base (d : TinfData) (num : Nat) (base : Nat) :
    Nat × TinfData :=
  if num = 0 then (base, d)
  else
    let r := tinf_getbits d num
    (base + r.1, r.2)

/-- The do-while loop of tinf_decode_symbol: walk the canonical code one bit
at a time; sum accumulates the counts of shorter codes, cur goes negative
exactly when the code is complete, and the symbol is trans[sum + cur].
Fuel bounds the loop (valid trees finish within 15 iterations). -/
def tinf_decode_symbol_go (t : TinfTree) :
    Int → Int → Nat → TinfData → Nat → Option Nat × TinfData
  | _, _, _, d, 0 => (none, d)
  | sum, cur, len, d, fuel + 1 =>
    let r := tinf_getbits d 1
    let cur1 := 2 * cur + (r.1 : Int)
    let len1 := len + 1
    let sum1 := sum + (t.table.getD len1 0 : Int)
    let cur2 := cur1 - (t.table.getD len1 0 : Int)
    if 0 ≤ cur2 then tinf_decode_symbol_go t sum1 cur2 len1 r.2 fuel
    else (some (t.trans.getD (sum1 + cur2).toNat 0), r.2)

/-- tinf_decode_symbol: decode one symbol from the given tree. -/
def tinf_decode_symbol (d : TinfData) (t : TinfTree) (fuel : Nat) :
    Option Nat × TinfData :=
  tinf_decode_symbol_go t 0 0 0 d fuel

/-- The while (length--) lengths[num++] = sym run of tinf_decode_trees. -/
def fill_lengths : List Nat → Nat → Nat → Nat → List Nat
  | lengths, _, _, 0 => lengths
  | lengths, pos, sym, k + 1 => fill_lengths (lengths.set pos sym) (pos + 1) sym k

/-- One iteration of the loop of tinf_decode_trees that reads the 3-bit code
length code lengths into the clcidx positions. -/
def tinf_read_cl_lengths (p : List Nat × TinfData) (i : Nat) :
    List Nat × TinfData :=
  let r := tinf_getbits p.2 3
  (p.1.set (clcidx.getD i 0) r.1, r.2)

/-- The run-length decoding loop of tinf_decode_trees: decode hlit + hdist
code lengths using the code-length tree held in d.ltree.  Returns the status
and the filled length vector; none means the fuel ran out. -/
def tinf_decode_trees_go (hlit hdist : Nat) :
    List Nat → Nat → TinfData → Nat → Option (Int × List Nat) × TinfData
  | _, _, d, 0 => (none, d)
  | lengths, num, d, fuel + 1 =>
    if num < hlit + hdist then
      match tinf_decode_symbol d d.ltree fuel with
      | (none, d1) => (none, d1)
      | (some sym, d1) =>
        if (sym : Int) > d1.ltree.max_sym then (some (TINF_DATA_ERROR, lengths), d1)
        else if sym = 16 then
          if num = 0 then (some (TINF_DATA_ERROR, lengths), d1)
          else
            let prev := lengths.getD (num - 1) 0
            let r := tinf_getbits_base d1 2 3
            if r.1 > hlit + hdist - num then (some (TINF_DATA_ERROR, lengths), r.2)
            else
              tinf_decode_trees_go hlit hdist
                (fill_lengths lengths num prev r.1) (num + r.1) r.2 fuel
        else if sym = 17 then
          let r := tinf_getbits_base d1 3 3
          if r.1 > hlit + hdist - num then (some (TINF_DATA_ERROR, lengths), r.2)
          else
            tinf_decode_trees_go hlit hdist
              (fill_lengths lengths num 0 r.1) (num + r.1) r.2 fuel
        else if sym = 18 then
          let r := tinf_getbits_base d1 7 11
          if r.1 > hlit + hdist - num then (some (TINF_DATA_ERROR, lengths), r.2)
          else
            tinf_decode_trees_go hlit hdist
              (fill_lengths lengths num 0 r.1) (num + r.1) r.2 fuel
        else
          if 1 > hlit + hdist - num then (some (TINF_DATA_ERROR, lengths), d1)
          else
            tinf_decode_trees_go hlit hdist
              (fill_lengths lengths num sym 1) (num + 1) d1 fuel
    else (some (TINF_OK, lengths), d)

/-- tinf_decode_trees: decode the dynamic literal/length and distance trees.
The C scratch buffer lengths[288 + 32] only has its first 19 entries zeroed;
every entry read beyond those is written first, so the model starts from an
all-zero buffer of 320. -/
def tinf_decode_trees (d : TinfData) (fuel : Nat) : Option Int × TinfData :=
  match tinf_getbits_base d 5 257 with
  | (hlit, da) =>
    match tinf_getbits_base da 5 1 with
    | (hdist, db) =>
      match tinf_getbits_base db 4 4 with
      | (hclen, dc) =>
        if hlit > 286 ∨ hdist > 30 then (some TINF_DATA_ERROR, dc)
        else
          match (List.range hclen).foldl tinf_read_cl_lengths
            (List.replicate 320 0, dc) with
          | (cl, dd) =>
            match tinf_build_tree dd.ltree cl 19 with
            | (res1, lt1) =>
              if res1 ≠ TINF_OK then (some res1, { dd with ltree := lt1 })
              else if lt1.max_sym = -1 then
                (some TINF_DATA_ERROR, { dd with ltree := lt1 })
              else
                match tinf_decode_trees_go hlit hdist cl 0
                  { dd with ltree := lt1 } fuel with
                | (none, d5) => (none, d5)
                | (some (res, lengths), d5) =>
                  if res ≠ TINF_OK then (some res, d5)
                  else if lengths.getD 256 0 = 0 then (some TINF_DATA_ERROR, d5)
                  else
                    match tinf_build_tree d5.ltree lengths hlit with
                    | (res2, lt2) =>
                      if res2 ≠ TINF_OK then (some res2, { d5 with ltree := lt2 })
                      else
                        match tinf_build_tree d5.dtree (lengths.drop hlit) hdist with
                        | (res3, dt3) =>
                          if res3 ≠ TINF_OK then
                            (some res3, { d5 with ltree := lt2, dtree := dt3 })
                          else (some TINF_OK, { d5 with ltree := lt2, dtree := dt3 })

/-- The copy-match loop of tinf_inflate_block_data: for i ascending,
dest[destPos + i] = dest[destPos + i - offs], logging the read (an Int index
with the cursor at the time) and the write.  destPos itself moves only after
the loop, as in the C code. -/
def tinf_copy_match (offs : Nat) : TinfData → Nat → Nat → TinfData
  | d, _, 0 => d
  | d, i, rem + 1 =>
    let ridx : Int := (d.destPos : Int) + (i : Int) - (offs : Int)
    let b := d.dest.getD ridx.toNat 0
    tinf_copy_match offs
      { d with
          dest := d.dest.set (d.destPos + i) b
          log := Access.destWrite (d.destPos + i) ::
                 Access.destRead ridx (d.destPos + i) :: d.log }
      (i + 1) rem

/-- The back-reference tail of the symbol loop: reject offs > destLen
(distance reaching before the output start), reject insufficient room, else
copy length bytes and advance.  some res means the block loop returns res;
none means it continues. -/
def tinf_backref (d : TinfData) (length offs : Nat) : Option Int × TinfData :=
  if offs > d.destLen then (some TINF_DATA_ERROR, d)
  else if d.dest.length - d.destPos < length then (some TINF_BUF_ERROR, d)
  else
    let d1 := tinf_copy_match offs d 0 length
    (none, { d1 with destPos := d1.destPos + length, destLen := d1.destLen + length })

/-- One iteration of the for (;;) symbol loop of tinf_inflate_block_data.
Result some (some res) ends the block with res, some none continues the
loop, none is fuel exhaustion inside the Huffman decoder. -/
def tinf_inflate_block_step (d : TinfData) (lt dt : TinfTree) (fuel : Nat) :
    Option (Option Int) × TinfData :=
  match tinf_decode_symbol d lt fuel with
  | (none, d1) => (none, d1)
  | (some sym, d1) =>
    if d1.overflow then (some (some TINF_DATA_ERROR), d1)
    else if sym = 256 then (some (some TINF_OK), d1)
    else if sym < 256 then
      if d1.destPos = d1.dest.length then (some (some TINF_BUF_ERROR), d1)
      else
        (some none,
         { d1 with
             dest := d1.dest.set d1.destPos sym
             destPos := d1.destPos + 1
             destLen := d1.destLen + 1
             log := Access.destWrite d1.destPos :: d1.log })
    else
      if (sym : Int) > lt.max_sym ∨ sym - 257 > 28 ∨ dt.max_sym = -1 then
        (some (some TINF_DATA_ERROR), d1)
      else
        let rl := tinf_getbits_base d1 (length_bits.getD (sym - 257) 0)
          (length_base.getD (sym - 257) 0)
        match tinf_decode_symbol rl.2 dt fuel with
        | (none, d2) => (none, d2)
        | (some dist, d2) =>
          if (dist : Int) > dt.max_sym ∨ dist > 29 then
            (some (some TINF_DATA_ERROR), d2)
          else
            let ro := tinf_getbits_base d2 (dist_bits.getD dist 0)
              (dist_base.getD dist 0)
            match tinf_backref ro.2 rl.1 ro.1 with
            | (some res, d3) => (some (some res), d3)
            | (none, d3) => (some none, d3)

/-- tinf_inflate_block_data: run the symbol loop until end of block, error,
or fuel exhaustion. -/
def tinf_inflate_block_data (lt dt : TinfTree) :
    TinfData → Nat → Option Int × TinfData
  | d, 0 => (none, d)
  | d, fuel + 1 =>
    match tinf_inflate_block_step d lt dt fuel with
    | (none, d1) => (none, d1)
    | (some (some res), d1) => (some res, d1)
    | (some none, d1) => tinf_inflate_block_data lt dt d1 fuel

/-- The byte-copy loop of tinf_inflate_uncompressed_block:
for (i = length; i; --i) *d->dest++ = *d->source++. -/
def tinf_copy_stored : TinfData → Nat → TinfData
  | d, 0 => d
  | d, i + 1 =>
    let b := d.src.getD d.srcPos 0
    tinf_copy_stored
      { d with
          dest := d.dest.set d.destPos b
          destPos := d.destPos + 1
          srcPos := d.srcPos + 1
          log := Access.destWrite d.destPos :: Access.srcRead d.srcPos :: d.log }
      i

/-- tinf_inflate_uncompressed_block: check the stored-block header (16-bit
little-endian length and its one's complement), check that length bytes
remain in the source and fit in the output, copy them verbatim, then restart
the bit reader on a byte boundary.  The C mask computation
~invlength & 0x0000FFFF on a 32-bit unsigned int is
(2 ^ 32 - 1 - invlength) &&& 65535. -/
def tinf_inflate_uncompressed_block (d : TinfData) : Int × TinfData :=
  if d.src.length - d.srcPos < 4 then (TINF_DATA_ERROR, d)
  else
    let r1 := read_le16 d d.srcPos
    let length := r1.1
    let r2 := read_le16 r1.2 (d.srcPos + 2)
    let invlength := r2.1
    let d2 := r2.2
    if length ≠ ((2 ^ 32 - 1 - invlength) &&& 65535) then (TINF_DATA_ERROR, d2)
    else
      let d3 := { d2 with srcPos := d2.srcPos + 4 }
      if d3.src.length - d3.srcPos < length then (TINF_DATA_ERROR, d3)
      else if d3.dest.length - d3.destPos < length then (TINF_BUF_ERROR, d3)
      else
        let d4 := tinf_copy_stored d3 length
        (TINF_OK, { d4 with tag := 0, bitcount := 0, destLen := d4.destLen + length })

/-- tinf_inflate_fixed_block: build the fixed trees, then run the symbol
loop. -/
def tinf_inflate_fixed_block (d : TinfData) (fuel : Nat) :
    Option Int × TinfData :=
  let ft := tinf_build_fixed_trees
  let d1 := { d with ltree := ft.1, dtree := ft.2 }
  tinf_inflate_block_data d1.ltree d1.dtree d1 fuel

/-- tinf_inflate_dynamic_block: decode the trees, then run the symbol
loop. -/
def tinf_inflate_dynamic_block (d : TinfData) (fuel : Nat) :
    Option Int × TinfData :=
  match tinf_decode_trees d fuel with
  | (none, d1) => (none, d1)
  | (some res, d1) =>
    if res ≠ TINF_OK then (some res, d1)
    else tinf_inflate_block_data d1.ltree d1.dtree d1 fuel

/-- The switch (btype) of tinf_uncompress: 0 stored, 1 fixed, 2 dynamic,
otherwise TINF_DATA_ERROR. -/
def tinf_block_dispatch (btype : Nat) (d : TinfData) (fuel : Nat) :
    Option Int × TinfData :=
  match btype with
  | 0 => let u := tinf_inflate_uncompressed_block d; (some u.1, u.2)
  | 1 => tinf_inflate_fixed_block d fuel
  | 2 => tinf_inflate_dynamic_block d fuel
  | _ => (some TINF_DATA_ERROR, d)

/-- The do-while block loop of tinf_uncompress: read BFINAL and BTYPE,
dispatch on the block type, stop on error or after the final block. -/
def tinf_uncompress_go : TinfData → Nat → Option Int × TinfData
  | d, 0 => (none, d)
  | d, fuel + 1 =>
    let rb := tinf_getbits d 1
    let bfinal := rb.1
    let rt := tinf_getbits rb.2 2
    let btype := rt.1
    match tinf_block_dispatch btype rt.2 fuel with
    | (none, d1) => (none, d1)
    | (some res, d1) =>
      if res ≠ TINF_OK then (some res, d1)
      else if bfinal ≠ 0 then (some TINF_OK, d1)
      else tinf_uncompress_go d1 fuel

/-- Initial decoder state of tinf_uncompress.  The C trees start as stack
garbage and are written before any read; the model zeroes them. -/
def tinf_init_data (dest src : List Nat) : TinfData :=
  { src := src, srcPos := 0, tag := 0, bitcount := 0, overflow := false
  , dest := dest, destPos := 0, destLen := 0
  , ltree := { table := List.replicate 16 0, trans := List.replicate 288 0, max_sym := 0 }
  , dtree := { table := List.replicate 16 0, trans := List.replicate 288 0, max_sym := 0 }
  , log := [] }

/-- tinf_uncompress: run the block loop, then apply the final overflow check
and the *destLen protocol: *destLen is zeroed on entry and receives the
produced byte count only on the TINF_OK path.  The value of the returned
triple is (status, destination buffer, *destLen on return); none means the
fuel ran out.  The full final state is returned alongside. -/
def tinf_uncompress (dest src : List Nat) (fuel : Nat) :
    Option (Int × List Nat × Nat) × TinfData :=
  match tinf_uncompress_go (tinf_init_data dest src) fuel with
  | (none, d1) => (none, d1)
  | (some res, d1) =>
    if res ≠ TINF_OK then (some (res, d1.dest, 0), d1)
    else if d1.overflow then (some (TINF_DATA_ERROR, d1.dest, 0), d1)
    else (some (TINF_OK, d1.dest, d1.destLen), d1)

/-- Number of entries of value i in the length vector L (the claim's
count[i], written from the claim's wording for the legality statement). -/
def spec_count (L : List Nat) (i : Nat) : Nat :=
  L.countP (fun l => decide (l = i))

/-- Number of coded symbols of the length vector L (the claim's sum). -/
def spec_sum (L : List Nat) : Nat :=
  L.countP (fun l => decide (l ≠ 0))

/-- The running capacity of the claim: max starts at 1 and is updated as
max = 2 * (max - count[i]) across lengths 0..15, where length 0 contributes
no codes. -/
def spec_max (L : List Nat) : Nat → Int
  | 0 => 1
  | i + 1 => 2 * (spec_max L i - (if i = 0 then 0 else (spec_count L i : Int)))

/-- Legality of a length vector as the claim states it: empty, or exactly
one coded symbol of length 1, or a complete code (sum > 1, final capacity 0)
in which no count ever exceeds the running capacity. -/
def legal_lengths (L : List Nat) : Prop :=
  spec_sum L = 0 ∨
  (spec_sum L = 1 ∧ spec_count L 1 = 1) ∨
  (1 < spec_sum L ∧
    (∀ i < 16, 1 ≤ i → (spec_count L i : Int) ≤ spec_max L i) ∧
    spec_max L 16 = 0)

/-- Running capacity of the tinf_build_tree check loop, as a function of
the count table: cap 0 = 1 and cap (i+1) = 2 * (cap i - table[i]), the
value the variable max holds when the loop reaches index i. -/
def tinf_cap (table : List Nat) : Nat → Int
  | 0 => 1
  | i + 1 => 2 * (tinf_cap table i - (table.getD i 0 : Int))

/-- Running sum of the tinf_build_tree check loop: the value the variable
sum holds when the loop reaches index i. -/
def tinf_sum_below (table : List Nat) : Nat → Nat
  | 0 => 0
  | i + 1 => tinf_sum_below table i + table.getD i 0

/-- Ghost judgment: a logged access is in bounds for a source of length
srcLen and a destination of capacity destCap; a back-reference read must
moreover land strictly below the write cursor, on output already written. -/
def AccOK (srcLen destCap : Nat) : Access → Prop
  | Access.srcRead i => i < srcLen
  | Access.destWrite i => i < destCap
  | Access.destRead i cursor => 0 ≤ i ∧ i < (cursor : Int) ∧ i < (destCap : Int)

/-- Ghost invariant of the decoder state: cursors within bounds, destLen is
the write cursor offset, and the whole access trace is in bounds. -/
def Inv (d : TinfData) : Prop :=
  d.srcPos ≤ d.src.length ∧ d.destPos ≤ d.dest.length ∧
  d.destLen = d.destPos ∧ ∀ a ∈ d.log, AccOK d.src.length d.dest.length a

/-- Ghost step relation: a computation step keeps the borrowed buffers (the
source list and the destination capacity), never clears the sticky overflow
flag, and preserves the invariant. -/
def Evolves (d d' : TinfData) : Prop :=
  d'.src = d.src ∧ d'.dest.length = d.dest.length ∧
  (d.overflow = true → d'.overflow = true) ∧ (Inv d → Inv d')

theorem getD_set_self {l : List Nat} {i : Nat} (a : Nat) (h : i < l.length) :
    (l.set i a).getD i 0 = a := by
  simp [List.getD, List.getElem?_set, h]

theorem getD_set_ne {l : List Nat} {i j : Nat} (a : Nat) (h : i ≠ j) :
    (l.set i a).getD j 0 = l.getD j 0 := by
  simp [List.getD, List.getElem?_set, h]

theorem getD_lt_of_mem {l : List Nat} {i b : Nat} (h : ∀ x ∈ l, x < b)
    (hb : 0 < b) : l.getD i 0 < b := by
  by_cases hi : i < l.length
  · rw [List.getD_eq_getElem l 0 hi]
    exact h _ (List.getElem_mem hi)
  · rw [List.getD_eq_default l 0 (by omega)]
    exact hb

theorem evolves_refl (d : TinfData) : Evolves d d := ⟨rfl, rfl, id, id⟩

theorem evolves_trans {a b c : TinfData} (h1 : Evolves a b) (h2 : Evolves b c) :
    Evolves a c :=
  ⟨h2.1.trans h1.1, h2.2.1.trans h1.2.1, fun h => h2.2.2.1 (h1.2.2.1 h),
   fun h => h2.2.2.2 (h1.2.2.2 h)⟩

theorem evolves_refill_step (d : TinfData) : Evolves d (tinf_refill_step d) := by
  unfold tinf_refill_step
  split
  next h =>
    refine ⟨rfl, rfl, fun ho => ho, fun hInv => ?_⟩
    obtain ⟨h1, h2, h3, h4⟩ := hInv
    refine ⟨Nat.lt_of_le_of_ne h1 h, h2, h3, ?_⟩
    intro a ha
    rcases List.mem_cons.mp ha with rfl | ha
    · show d.srcPos < d.src.length
      omega
    · exact h4 a ha
  next => exact ⟨rfl, rfl, fun _ => rfl, fun h => h⟩

theorem tinf_refill_step_bitcount (d : TinfData) :
    (tinf_refill_step d).bitcount = d.bitcount + 8 := by
  unfold tinf_refill_step
  split <;> rfl

theorem tinf_refill_step_src (d : TinfData) :
    (tinf_refill_step d).src = d.src := by
  unfold tinf_refill_step
  split <;> rfl

theorem evolves_refill_go (num : Nat) :
    ∀ (k : Nat) (d : TinfData), Evolves d (tinf_refill_go num d k) := by
  intro k
  induction k with
  | zero => intro d; exact evolves_refl d
  | succ k ih =>
    intro d
    unfold tinf_refill_go
    split
    · exact evolves_trans (evolves_refill_step d) (ih _)
    · exact evolves_refl d

theorem evolves_refill (d : TinfData) (num : Nat) :
    Evolves d (tinf_refill d num) :=
  evolves_refill_go num num d

theorem tinf_refill_go_of_ge {num : Nat} {d : TinfData} (h : num ≤ d.bitcount) :
    ∀ k, tinf_refill_go num d k = d := by
  intro k
  cases k with
  | zero => rfl
  | succ k =>
    unfold tinf_refill_go
    split
    · omega
    · rfl

/-- The fuelled refill satisfies the exact while-loop equation of the C
code: the counter num passed by tinf_refill is always sufficient. -/
theorem tinf_refill_eq (d : TinfData) (num : Nat) :
    tinf_refill d num =
      if d.bitcount < num then tinf_refill (tinf_refill_step d) num else d := by
  have stable : ∀ (k1 : Nat) (k2 : Nat) (e : TinfData),
      num ≤ e.bitcount + 8 * k1 → num ≤ e.bitcount + 8 * k2 →
      tinf_refill_go num e k1 = tinf_refill_go num e k2 := by
    intro k1
    induction k1 with
    | zero =>
      intro k2 e h1 _
      have he : num ≤ e.bitcount := by omega
      rw [tinf_refill_go_of_ge he, tinf_refill_go_of_ge he]
    | succ k1 ih =>
      intro k2 e h1 h2
      by_cases hb : e.bitcount < num
      · cases k2 with
        | zero =>
          exfalso
          omega
        | succ k2 =>
          unfold tinf_refill_go
          rw [if_pos hb, if_pos hb]
          exact ih k2 _ (by rw [tinf_refill_step_bitcount]; omega)
            (by rw [tinf_refill_step_bitcount]; omega)
      · have he : num ≤ e.bitcount := by omega
        rw [tinf_refill_go_of_ge he, tinf_refill_go_of_ge he]
  unfold tinf_refill
  split
  next h =>
    obtain ⟨m, rfl⟩ : ∃ m, num = m + 1 := ⟨num - 1, by omega⟩
    have h1 : tinf_refill_go (m + 1) d (m + 1) =
        if d.bitcount < m + 1 then tinf_refill_go (m + 1) (tinf_refill_step d) m
        else d := rfl
    rw [h1, if_pos h]
    apply stable
    · rw [tinf_refill_step_bitcount]; omega
    · rw [tinf_refill_step_bitcount]; omega
  next h => exact tinf_refill_go_of_ge (by omega) num

theorem tinf_refill_go_bitcount_ge {num : Nat} :
    ∀ (k : Nat) (d : TinfData), num ≤ d.bitcount + 8 * k →
      num ≤ (tinf_refill_go num d k).bitcount := by
  intro k
  induction k with
  | zero => intro d h; simpa [tinf_refill_go] using h
  | succ k ih =>
    intro d h
    unfold tinf_refill_go
    split
    · exact ih _ (by rw [tinf_refill_step_bitcount]; omega)
    · omega

theorem tinf_refill_bitcount_ge (d : TinfData) (num : Nat) :
    num ≤ (tinf_refill d num).bitcount :=
  tinf_refill_go_bitcount_ge num d (by omega)

theorem tinf_refill_go_bitcount_lt {num : Nat} :
    ∀ (k : Nat) (d : TinfData), d.bitcount < num + 8 →
      (tinf_refill_go num d k).bitcount < num + 8 := by
  intro k
  induction k with
  | zero => intro d h; simpa [tinf_refill_go] using h
  | succ k ih =>
    intro d h
    unfold tinf_refill_go
    split
    next hb => exact ih _ (by rw [tinf_refill_step_bitcount]; omega)
    next => exact h

theorem tinf_refill_go_tag_lt {num : Nat} :
    ∀ (k : Nat) (d : TinfData), (∀ b ∈ d.src, b < 256) →
      d.tag < 2 ^ d.bitcount →
      (tinf_refill_go num d k).tag < 2 ^ (tinf_refill_go num d k).bitcount := by
  intro k
  induction k with
  | zero => intro d _ h; simpa [tinf_refill_go] using h
  | succ k ih =>
    intro d hsrc htag
    unfold tinf_refill_go
    split
    next hb =>
      apply ih
      · rw [tinf_refill_step_src]; exact hsrc
      · unfold tinf_refill_step
        split
        next hs =>
          show d.tag ||| (d.src.getD d.srcPos 0 <<< d.bitcount % 2 ^ 32) <
            2 ^ (d.bitcount + 8)
          have hbyte : d.src.getD d.srcPos 0 < 256 := getD_lt_of_mem hsrc (by omega)
          have hsh : d.src.getD d.srcPos 0 <<< d.bitcount < 2 ^ (d.bitcount + 8) := by
            rw [Nat.shiftLeft_eq, pow_add]
            have : (256 : Nat) = 2 ^ 8 := by norm_num
            calc d.src.getD d.srcPos 0 * 2 ^ d.bitcount
                < 256 * 2 ^ d.bitcount := by
                  exact (Nat.mul_lt_mul_right (Nat.pos_pow_of_pos _ (by norm_num))).mpr hbyte
              _ = 2 ^ d.bitcount * 2 ^ 8 := by rw [this]; ring
          have hmod : d.src.getD d.srcPos 0 <<< d.bitcount % 2 ^ 32 ≤
              d.src.getD d.srcPos 0 <<< d.bitcount := Nat.mod_le _ _
          have htag' : d.tag < 2 ^ (d.bitcount + 8) := by
            calc d.tag < 2 ^ d.bitcount := htag
              _ ≤ 2 ^ (d.bitcount + 8) := Nat.pow_le_pow_right (by norm_num) (by omega)
          exact Nat.or_lt_two_pow htag' (by omega)
        next =>
          show d.tag < 2 ^ (d.bitcount + 8)
          calc d.tag < 2 ^ d.bitcount := htag
            _ ≤ 2 ^ (d.bitcount + 8) := Nat.pow_le_pow_right (by norm_num) (by omega)
    next => exact htag

theorem tinf_refill_step_tag_exact (d : TinfData)
    (hbc : d.bitcount ≤ 24) (hs : d.srcPos < d.src.length)
    (hsrc : ∀ b ∈ d.src, b < 256) :
    (tinf_refill_step d).tag = d.tag ||| (d.src.getD d.srcPos 0 <<< d.bitcount) := by
  unfold tinf_refill_step
  rw [if_pos (by omega)]
  show d.tag ||| (d.src.getD d.srcPos 0 <<< d.bitcount % 2 ^ 32) = _
  have hbyte : d.src.getD d.srcPos 0 < 256 := getD_lt_of_mem hsrc (by norm_num)
  have : d.src.getD d.srcPos 0 <<< d.bitcount < 2 ^ 32 := by
    rw [Nat.shiftLeft_eq]
    calc d.src.getD d.srcPos 0 * 2 ^ d.bitcount
        < 256 * 2 ^ d.bitcount :=
          (Nat.mul_lt_mul_right (Nat.pos_pow_of_pos _ (by norm_num))).mpr hbyte
      _ ≤ 256 * 2 ^ 24 := by
          exact Nat.mul_le_mul_left 256 (Nat.pow_le_pow_right (by norm_num) hbc)
      _ ≤ 2 ^ 32 := by norm_num
  rw [Nat.mod_eq_of_lt this]

theorem evolves_getbits_no_refill (d : TinfData) (num : Nat) :
    Evolves d (tinf_getbits_no_refill d num).2 :=
  ⟨rfl, rfl, fun h => h, fun h => h⟩

theorem evolves_getbits (d : TinfData) (num : Nat) :
    Evolves d (tinf_getbits d num).2 :=
  evolves_trans (evolves_refill d num) (evolves_getbits_no_refill _ num)

theorem evolves_getbits_base (d : TinfData) (num base : Nat) :
    Evolves d (tinf_getbits_base d num base).2 := by
  unfold tinf_getbits_base
  split
  · exact evolves_refl d
  · exact evolves_getbits d num

theorem tinf_getbits_base_ge (d : TinfData) (num base : Nat) :
    base ≤ (tinf_getbits_base d num base).1 := by
  unfold tinf_getbits_base
  split
  · exact le_refl base
  · exact Nat.le_add_right base _

theorem shiftRight_lt_pow {t b n : Nat} (ht : t < 2 ^ b) (hn : n ≤ b) :
    t >>> n < 2 ^ (b - n) := by
  rw [Nat.shiftRight_eq_div_pow]
  rw [Nat.div_lt_iff_lt_mul (Nat.pos_pow_of_pos _ (by norm_num))]
  calc t < 2 ^ b := ht
    _ = 2 ^ (b - n) * 2 ^ n := by rw [← pow_add]; congr 1; omega

theorem evolves_decode_go (t : TinfTree) :
    ∀ (fuel : Nat) (sum cur : Int) (len : Nat) (d : TinfData),
      Evolves d (tinf_decode_symbol_go t sum cur len d fuel).2 := by
  intro fuel
  induction fuel with
  | zero => intro _ _ _ d; exact evolves_refl d
  | succ fuel ih =>
    intro sum cur len d
    simp only [tinf_decode_symbol_go]
    split
    · exact evolves_trans (evolves_getbits d 1) (ih _ _ _ _)
    · exact evolves_getbits d 1

theorem evolves_decode_symbol (d : TinfData) (t : TinfTree) (fuel : Nat) :
    Evolves d (tinf_decode_symbol d t fuel).2 :=
  evolves_decode_go t fuel 0 0 0 d

theorem tinf_copy_match_fields (offs : Nat) :
    ∀ (rem i : Nat) (d : TinfData),
      (tinf_copy_match offs d i rem).src = d.src ∧
      (tinf_copy_match offs d i rem).srcPos = d.srcPos ∧
      (tinf_copy_match offs d i rem).tag = d.tag ∧
      (tinf_copy_match offs d i rem).bitcount = d.bitcount ∧
      (tinf_copy_match offs d i rem).overflow = d.overflow ∧
      (tinf_copy_match offs d i rem).destPos = d.destPos ∧
      (tinf_copy_match offs d i rem).destLen = d.destLen ∧
      (tinf_copy_match offs d i rem).dest.length = d.dest.length := by
  intro rem
  induction rem with
  | zero => intro i d; exact ⟨rfl, rfl, rfl, rfl, rfl, rfl, rfl, rfl⟩
  | succ rem ih =>
    intro i d
    simp only [tinf_copy_match]
    refine ⟨?_, ?_, ?_, ?_, ?_, ?_, ?_, ?_⟩ <;>
      simp [ih (i + 1), List.length_set]

theorem tinf_copy_match_log {offs srcLen cap : Nat} (hoffs : 1 ≤ offs) :
    ∀ (rem i : Nat) (d : TinfData),
      d.src.length = srcLen → d.dest.length = cap →
      offs ≤ d.destPos + i → d.destPos + i + rem ≤ cap →
      (∀ a ∈ d.log, AccOK srcLen cap a) →
      ∀ a ∈ (tinf_copy_match offs d i rem).log, AccOK srcLen cap a := by
  intro rem
  induction rem with
  | zero => intro i d _ _ _ _ hlog; exact hlog
  | succ rem ih =>
    intro i d hsrc hcap hle hbound hlog
    simp only [tinf_copy_match]
    apply ih (i + 1)
    · exact hsrc
    · rw [List.length_set]; exact hcap
    · show offs ≤ d.destPos + (i + 1)
      omega
    · show d.destPos + (i + 1) + rem ≤ cap
      omega
    · intro a ha
      rcases List.mem_cons.mp ha with rfl | ha
      · show d.destPos + i < cap
        omega
      · rcases List.mem_cons.mp ha with rfl | ha
        · refine ⟨by omega, by omega, by omega⟩
        · exact hlog a ha

theorem evolves_backref (d : TinfData) (length offs : Nat) (hoffs : 1 ≤ offs) :
    Evolves d (tinf_backref d length offs).2 := by
  unfold tinf_backref
  split
  · exact evolves_refl d
  · split
    next h1 h2 =>
      exact evolves_refl d
    next h1 h2 =>
      obtain ⟨hsrc, hsp, htag, hbc, hov, hdp, hdl, hlen⟩ :=
        tinf_copy_match_fields offs length 0 d
      refine ⟨hsrc, hlen, ?_, ?_⟩
      · intro h
        rw [hov]; exact h
      · intro hInv
        obtain ⟨i1, i2, i3, i4⟩ := hInv
        have hcopy := @tinf_copy_match_log offs d.src.length d.dest.length
          hoffs length 0 d rfl rfl
          (by omega) (by omega) i4
        refine ⟨?_, ?_, ?_, ?_⟩
        · show (tinf_copy_match offs d 0 length).srcPos ≤
            (tinf_copy_match offs d 0 length).src.length
          rw [hsp, hsrc]; exact i1
        · show (tinf_copy_match offs d 0 length).destPos + length ≤
            (tinf_copy_match offs d 0 length).dest.length
          rw [hdp, hlen]; omega
        · show (tinf_copy_match offs d 0 length).destLen + length =
            (tinf_copy_match offs d 0 length).destPos + length
          rw [hdp, hdl]; omega
        · intro a ha
          show AccOK (tinf_copy_match offs d 0 length).src.length
            (tinf_copy_match offs d 0 length).dest.length a
          rw [hsrc, hlen]
          exact hcopy a ha

theorem dist_base_pos : ∀ i < 30, 1 ≤ dist_base.getD i 0 := by decide

theorem evolves_block_step (d : TinfData) (lt dt : TinfTree) (fuel : Nat) :
    Evolves d (tinf_inflate_block_step d lt dt fuel).2 := by
  simp only [tinf_inflate_block_step]
  split
  next d1 heq =>
    have h := evolves_decode_symbol d lt fuel
    rw [heq] at h; exact h
  next sym d1 heq =>
    have hev1 : Evolves d d1 := by
      have h := evolves_decode_symbol d lt fuel
      rw [heq] at h; exact h
    split
    next => exact hev1
    next hov =>
      split
      next => exact hev1
      next h256 =>
        split
        next hlt =>
          split
          next => exact hev1
          next hfull =>
            refine evolves_trans hev1 ⟨rfl, by simp [List.length_set], fun h => h, ?_⟩
            intro hInv
            obtain ⟨i1, i2, i3, i4⟩ := hInv
            refine ⟨i1, ?_, ?_, ?_⟩
            · show d1.destPos + 1 ≤ (d1.dest.set d1.destPos sym).length
              rw [List.length_set]; omega
            · show d1.destLen + 1 = d1.destPos + 1
              omega
            · intro a ha
              show AccOK d1.src.length (d1.dest.set d1.destPos sym).length a
              rw [List.length_set]
              rcases List.mem_cons.mp ha with rfl | ha
              · show d1.destPos < d1.dest.length
                omega
              · exact i4 a ha
        next hge =>
          split
          next => exact hev1
          next hrange =>
            split
            next d2 heq2 =>
              have h := evolves_decode_symbol
                (tinf_getbits_base d1 (length_bits.getD (sym - 257) 0)
                  (length_base.getD (sym - 257) 0)).2 dt fuel
              rw [heq2] at h
              exact evolves_trans (evolves_trans hev1 (evolves_getbits_base _ _ _)) h
            next dist d2 heq2 =>
              have hev2 : Evolves d d2 := by
                have h := evolves_decode_symbol
                  (tinf_getbits_base d1 (length_bits.getD (sym - 257) 0)
                    (length_base.getD (sym - 257) 0)).2 dt fuel
                rw [heq2] at h
                exact evolves_trans (evolves_trans hev1 (evolves_getbits_base _ _ _)) h
              split
              next => exact hev2
              next hdchk =>
                have hd29 : dist ≤ 29 := by
                  by_contra hc
                  exact hdchk (Or.inr (by omega))
                have hoffs : 1 ≤ (tinf_getbits_base d2 (dist_bits.getD dist 0)
                    (dist_base.getD dist 0)).1 :=
                  le_trans (dist_base_pos dist (by omega)) (tinf_getbits_base_ge _ _ _)
                have hev3 : Evolves d (tinf_getbits_base d2 (dist_bits.getD dist 0)
                    (dist_base.getD dist 0)).2 :=
                  evolves_trans hev2 (evolves_getbits_base _ _ _)
                have hbre := evolves_backref
                  (tinf_getbits_base d2 (dist_bits.getD dist 0) (dist_base.getD dist 0)).2
                  (tinf_getbits_base d1 (length_bits.getD (sym - 257) 0)
                    (length_base.getD (sym - 257) 0)).1
                  (tinf_getbits_base d2 (dist_bits.getD dist 0) (dist_base.getD dist 0)).1
                  hoffs
                split
                next res d3 heq3 =>
                  rw [heq3] at hbre
                  exact evolves_trans hev3 hbre
                next d3 heq3 =>
                  rw [heq3] at hbre
                  exact evolves_trans hev3 hbre

theorem tinf_copy_stored_fields :
    ∀ (n : Nat) (d : TinfData),
      (tinf_copy_stored d n).src = d.src ∧
      (tinf_copy_stored d n).srcPos = d.srcPos + n ∧
      (tinf_copy_stored d n).destPos = d.destPos + n ∧
      (tinf_copy_stored d n).destLen = d.destLen ∧
      (tinf_copy_stored d n).tag = d.tag ∧
      (tinf_copy_stored d n).bitcount = d.bitcount ∧
      (tinf_copy_stored d n).overflow = d.overflow ∧
      (tinf_copy_stored d n).dest.length = d.dest.length ∧
      (tinf_copy_stored d n).ltree = d.ltree ∧
      (tinf_copy_stored d n).dtree = d.dtree := by
  intro n
  induction n with
  | zero =>
    intro d
    exact ⟨rfl, rfl, rfl, rfl, rfl, rfl, rfl, rfl, rfl, rfl⟩
  | succ n ih =>
    intro d
    simp only [tinf_copy_stored]
    refine ⟨?_, ?_, ?_, ?_, ?_, ?_, ?_, ?_, ?_, ?_⟩ <;>
      simp [ih, List.length_set] <;> omega

theorem tinf_copy_stored_log {srcLen cap : Nat} :
    ∀ (n : Nat) (d : TinfData),
      d.src.length = srcLen → d.dest.length = cap →
      d.srcPos + n ≤ srcLen → d.destPos + n ≤ cap →
      (∀ a ∈ d.log, AccOK srcLen cap a) →
      ∀ a ∈ (tinf_copy_stored d n).log, AccOK srcLen cap a := by
  intro n
  induction n with
  | zero => intro d _ _ _ _ hlog; exact hlog
  | succ n ih =>
    intro d hsrc hcap hsb hdb hlog
    simp only [tinf_copy_stored]
    apply ih
    · exact hsrc
    · rw [List.length_set]; exact hcap
    · show d.srcPos + 1 + n ≤ srcLen
      omega
    · show d.destPos + 1 + n ≤ cap
      omega
    · intro a ha
      rcases List.mem_cons.mp ha with rfl | ha
      · show d.destPos < cap
        omega
      · rcases List.mem_cons.mp ha with rfl | ha
        · show d.srcPos < srcLen
          omega
        · exact hlog a ha

theorem tinf_copy_stored_content :
    ∀ (n : Nat) (d : TinfData), d.destPos + n ≤ d.dest.length →
      (∀ k, k < n →
        (tinf_copy_stored d n).dest.getD (d.destPos + k) 0 =
          d.src.getD (d.srcPos + k) 0) ∧
      (∀ j, j < d.destPos ∨ d.destPos + n ≤ j →
        (tinf_copy_stored d n).dest.getD j 0 = d.dest.getD j 0) := by
  intro n
  induction n with
  | zero =>
    intro d _
    exact ⟨fun k hk => absurd hk (by omega), fun j _ => rfl⟩
  | succ n ih =>
    intro d hcap
    simp only [tinf_copy_stored]
    set d1 : TinfData :=
      { d with
          dest := d.dest.set d.destPos (d.src.getD d.srcPos 0)
          destPos := d.destPos + 1
          srcPos := d.srcPos + 1
          log := Access.destWrite d.destPos :: Access.srcRead d.srcPos :: d.log }
      with hd1
    have hcap1 : d1.destPos + n ≤ d1.dest.length := by
      simp only [hd1, List.length_set]
      omega
    obtain ⟨ihc, ihu⟩ := ih d1 hcap1
    constructor
    · intro k hk
      cases k with
      | zero =>
        have := ihu d.destPos (by simp only [hd1]; omega)
        simp only [Nat.add_zero]
        rw [this]
        show (d.dest.set d.destPos (d.src.getD d.srcPos 0)).getD d.destPos 0 = _
        rw [getD_set_self _ (by omega)]
      | succ k =>
        have := ihc k (by omega)
        simp only [hd1] at this
        show (tinf_copy_stored d1 n).dest.getD (d.destPos + (k + 1)) 0 = _
        simp only [hd1]
        rw [show d.destPos + (k + 1) = d.destPos + 1 + k by omega, this]
        congr 1
        omega
    · intro j hj
      have := ihu j (by simp only [hd1]; omega)
      rw [this]
      show (d.dest.set d.destPos (d.src.getD d.srcPos 0)).getD j 0 = _
      rw [getD_set_ne _ (by omega)]

theorem evolves_block_data (lt dt : TinfTree) :
    ∀ (fuel : Nat) (d : TinfData), Evolves d (tinf_inflate_block_data lt dt d fuel).2 := by
  intro fuel
  induction fuel with
  | zero => intro d; exact evolves_refl d
  | succ fuel ih =>
    intro d
    simp only [tinf_inflate_block_data]
    rcases hst : tinf_inflate_block_step d lt dt fuel with ⟨o, d1⟩
    have hev : Evolves d d1 := by
      have h := evolves_block_step d lt dt fuel
      rw [hst] at h; exact h
    cases o with
    | none => exact hev
    | some oi =>
      cases oi with
      | none => exact evolves_trans hev (ih d1)
      | some res => exact hev

theorem evolves_uncompressed (d : TinfData) :
    Evolves d (tinf_inflate_uncompressed_block d).2 := by
  have hlog4 : Inv d → d.srcPos + 4 ≤ d.src.length →
      ∀ a ∈ (Access.srcRead (d.srcPos + 2 + 1) :: Access.srcRead (d.srcPos + 2) ::
        Access.srcRead (d.srcPos + 1) :: Access.srcRead d.srcPos :: d.log),
        AccOK d.src.length d.dest.length a := by
    intro hInv hb a ha
    obtain ⟨i1, i2, i3, i4⟩ := hInv
    rcases List.mem_cons.mp ha with rfl | ha
    · show d.srcPos + 2 + 1 < d.src.length
      omega
    · rcases List.mem_cons.mp ha with rfl | ha
      · show d.srcPos + 2 < d.src.length
        omega
      · rcases List.mem_cons.mp ha with rfl | ha
        · show d.srcPos + 1 < d.src.length
          omega
        · rcases List.mem_cons.mp ha with rfl | ha
          · show d.srcPos < d.src.length
            omega
          · exact i4 a ha
  simp only [tinf_inflate_uncompressed_block, read_le16]
  split
  next => exact evolves_refl d
  next h4 =>
    split
    next hmm =>
      refine ⟨rfl, rfl, fun h => h, fun hInv => ?_⟩
      obtain ⟨i1, i2, i3, i4⟩ := hInv
      exact ⟨i1, i2, i3, hlog4 ⟨i1, i2, i3, i4⟩ (by omega)⟩
    next hmm =>
      split
      next hs2 =>
        refine ⟨rfl, rfl, fun h => h, fun hInv => ?_⟩
        obtain ⟨i1, i2, i3, i4⟩ := hInv
        refine ⟨by show d.srcPos + 4 ≤ d.src.length; omega, i2, i3,
          hlog4 ⟨i1, i2, i3, i4⟩ (by omega)⟩
      next hs2 =>
        split
        next hd2 =>
          refine ⟨rfl, rfl, fun h => h, fun hInv => ?_⟩
          obtain ⟨i1, i2, i3, i4⟩ := hInv
          refine ⟨by show d.srcPos + 4 ≤ d.src.length; omega, i2, i3,
            hlog4 ⟨i1, i2, i3, i4⟩ (by omega)⟩
        next hd2 =>
          refine ⟨?_, ?_, ?_, ?_⟩
          · exact (tinf_copy_stored_fields _ _).1
          · exact (tinf_copy_stored_fields _ _).2.2.2.2.2.2.2.1
          · intro h
            exact ((tinf_copy_stored_fields _ _).2.2.2.2.2.2.1).trans h
          · intro hInv
            obtain ⟨i1, i2, i3, i4⟩ := hInv
            obtain ⟨f1, f2, f3, f4, f5, f6, f7, f8, f9, f10⟩ :=
              tinf_copy_stored_fields
                (d.src.getD d.srcPos 0 ||| d.src.getD (d.srcPos + 1) 0 <<< 8)
                { d with
                    srcPos := d.srcPos + 4
                    log := Access.srcRead (d.srcPos + 2 + 1) :: Access.srcRead (d.srcPos + 2) ::
                      Access.srcRead (d.srcPos + 1) :: Access.srcRead d.srcPos :: d.log }
            refine ⟨?_, ?_, ?_, ?_⟩
            · show (tinf_copy_stored _ _).srcPos ≤ (tinf_copy_stored _ _).src.length
              rw [f1, f2]
              show d.srcPos + 4 + _ ≤ d.src.length
              omega
            · show (tinf_copy_stored _ _).destPos ≤ (tinf_copy_stored _ _).dest.length
              rw [f3, f8]
              show d.destPos + _ ≤ d.dest.length
              omega
            · show (tinf_copy_stored _ _).destLen + _ = (tinf_copy_stored _ _).destPos
              rw [f4, f3]
              show d.destLen + _ = d.destPos + _
              omega
            · intro a ha
              show AccOK (tinf_copy_stored _ _).src.length (tinf_copy_stored _ _).dest.length a
              rw [f1, f8]
              refine tinf_copy_stored_log _ _ rfl rfl ?_ ?_ ?_ a ha
              · show d.srcPos + 4 + _ ≤ d.src.length
                omega
              · show d.destPos + _ ≤ d.dest.length
                omega
              · exact hlog4 ⟨i1, i2, i3, i4⟩ (by omega)

theorem evolves_set_ltree (d : TinfData) (t : TinfTree) :
    Evolves d { d with ltree := t } := ⟨rfl, rfl, fun h => h, fun h => h⟩

theorem evolves_set_dtree (d : TinfData) (t : TinfTree) :
    Evolves d { d with dtree := t } := ⟨rfl, rfl, fun h => h, fun h => h⟩

theorem evolves_cl_fold :
    ∀ (is : List Nat) (p : List Nat × TinfData),
      Evolves p.2 ((is.foldl tinf_read_cl_lengths p)).2 := by
  intro is
  induction is with
  | nil => intro p; exact evolves_refl _
  | cons i is ih =>
    intro p
    simp only [List.foldl_cons]
    exact evolves_trans (evolves_getbits p.2 3) (ih (tinf_read_cl_lengths p i))

theorem evolves_decode_trees_go (hlit hdist : Nat) :
    ∀ (fuel : Nat) (lengths : List Nat) (num : Nat) (d : TinfData),
      Evolves d (tinf_decode_trees_go hlit hdist lengths num d fuel).2 := by
  intro fuel
  induction fuel with
  | zero => intro _ _ d; exact evolves_refl d
  | succ fuel ih =>
    intro lengths num d
    simp only [tinf_decode_trees_go]
    split
    next hnum =>
      split
      next d1 heq =>
        have h := evolves_decode_symbol d d.ltree fuel
        rw [heq] at h; exact h
      next sym d1 heq =>
        have hev1 : Evolves d d1 := by
          have h := evolves_decode_symbol d d.ltree fuel
          rw [heq] at h; exact h
        split
        next => exact hev1
        next hmax =>
          split
          next h16 =>
            split
            next => exact hev1
            next h0 =>
              split
              next => exact evolves_trans hev1 (evolves_getbits_base d1 2 3)
              next =>
                exact evolves_trans
                  (evolves_trans hev1 (evolves_getbits_base d1 2 3)) (ih _ _ _)
          next h16 =>
            split
            next h17 =>
              split
              next => exact evolves_trans hev1 (evolves_getbits_base d1 3 3)
              next =>
                exact evolves_trans
                  (evolves_trans hev1 (evolves_getbits_base d1 3 3)) (ih _ _ _)
            next h17 =>
              split
              next h18 =>
                split
                next => exact evolves_trans hev1 (evolves_getbits_base d1 7 11)
                next =>
                  exact evolves_trans
                    (evolves_trans hev1 (evolves_getbits_base d1 7 11)) (ih _ _ _)
              next h18 =>
                split
                next => exact hev1
                next => exact evolves_trans hev1 (ih _ _ _)
    next => exact evolves_refl d

theorem evolves_set_trees (d : TinfData) (t u : TinfTree) :
    Evolves d { d with ltree := t, dtree := u } := ⟨rfl, rfl, fun h => h, fun h => h⟩

theorem evolves_decode_trees (d : TinfData) (fuel : Nat) :
    Evolves d (tinf_decode_trees d fuel).2 := by
  unfold tinf_decode_trees
  split
  next hlit da heq1 =>
    have e1 : Evolves d da := by
      have h := evolves_getbits_base d 5 257
      rw [heq1] at h; exact h
    split
    next hdist db heq2 =>
      have e2 : Evolves d db := by
        have h := evolves_getbits_base da 5 1
        rw [heq2] at h; exact evolves_trans e1 h
      split
      next hclen dc heq3 =>
        have e3 : Evolves d dc := by
          have h := evolves_getbits_base db 4 4
          rw [heq3] at h; exact evolves_trans e2 h
        split
        next => exact e3
        next =>
          split
          next cl dd heq4 =>
            have e4 : Evolves d dd := by
              have h := evolves_cl_fold (List.range hclen) (List.replicate 320 0, dc)
              rw [heq4] at h; exact evolves_trans e3 h
            split
            next res1 lt1 heq5 =>
              have e5 : Evolves d { dd with ltree := lt1 } :=
                evolves_trans e4 (evolves_set_ltree _ _)
              split
              next => exact e5
              next =>
                split
                next => exact e5
                next =>
                  split
                  next d5 heq6 =>
                    have h := evolves_decode_trees_go hlit hdist fuel cl 0
                      { dd with ltree := lt1 }
                    rw [heq6] at h
                    exact evolves_trans e5 h
                  next res lens d5 heq6 =>
                    have e6 : Evolves d d5 := by
                      have h := evolves_decode_trees_go hlit hdist fuel cl 0
                        { dd with ltree := lt1 }
                      rw [heq6] at h
                      exact evolves_trans e5 h
                    split
                    next => exact e6
                    next =>
                      split
                      next => exact e6
                      next =>
                        split
                        next res2 lt2 heq7 =>
                          have e7 : Evolves d { d5 with ltree := lt2 } :=
                            evolves_trans e6 (evolves_set_ltree _ _)
                          split
                          next => exact e7
                          next =>
                            split
                            next res3 dt3 heq8 =>
                              have e8 : Evolves d { d5 with ltree := lt2, dtree := dt3 } :=
                                evolves_trans e6 (evolves_set_trees _ _ _)
                              split
                              next => exact e8
                              next => exact e8

theorem evolves_fixed_block (d : TinfData) (fuel : Nat) :
    Evolves d (tinf_inflate_fixed_block d fuel).2 := by
  simp only [tinf_inflate_fixed_block]
  exact evolves_trans (evolves_set_trees _ _ _) (evolves_block_data _ _ fuel _)

theorem evolves_dynamic_block (d : TinfData) (fuel : Nat) :
    Evolves d (tinf_inflate_dynamic_block d fuel).2 := by
  simp only [tinf_inflate_dynamic_block]
  split
  next d1 heq =>
    have h := evolves_decode_trees d fuel
    rw [heq] at h; exact h
  next res d1 heq =>
    have hev1 : Evolves d d1 := by
      have h := evolves_decode_trees d fuel
      rw [heq] at h; exact h
    split
    next => exact hev1
    next => exact evolves_trans hev1 (evolves_block_data _ _ fuel d1)

theorem evolves_dispatch (btype : Nat) (d : TinfData) (fuel : Nat) :
    Evolves d (tinf_block_dispatch btype d fuel).2 := by
  unfold tinf_block_dispatch
  split
  · exact evolves_uncompressed d
  · exact evolves_fixed_block d fuel
  · exact evolves_dynamic_block d fuel
  · exact evolves_refl d

theorem evolves_uncompress_go :
    ∀ (fuel : Nat) (d : TinfData), Evolves d (tinf_uncompress_go d fuel).2 := by
  intro fuel
  induction fuel with
  | zero => intro d; exact evolves_refl d
  | succ fuel ih =>
    intro d
    simp only [tinf_uncompress_go]
    have hev2 : Evolves d (tinf_getbits (tinf_getbits d 1).2 2).2 :=
      evolves_trans (evolves_getbits d 1) (evolves_getbits _ 2)
    split
    next d1 heq =>
      have h := evolves_dispatch (tinf_getbits (tinf_getbits d 1).2 2).1
        (tinf_getbits (tinf_getbits d 1).2 2).2 fuel
      rw [heq] at h
      exact evolves_trans hev2 h
    next res d1 heq =>
      have hev3 : Evolves d d1 := by
        have h := evolves_dispatch (tinf_getbits (tinf_getbits d 1).2 2).1
          (tinf_getbits (tinf_getbits d 1).2 2).2 fuel
        rw [heq] at h
        exact evolves_trans hev2 h
      split
      next => exact hev3
      next =>
        split
        next => exact hev3
        next => exact evolves_trans hev3 (ih d1)

theorem inv_init (dest src : List Nat) : Inv (tinf_init_data dest src) := by
  refine ⟨Nat.zero_le _, Nat.zero_le _, rfl, ?_⟩
  intro a ha
  exact absurd ha (List.not_mem_nil a)

theorem uncompress_final_inv (dest src : List Nat) (fuel : Nat) :
    ((tinf_uncompress_go (tinf_init_data dest src) fuel).2).src = src ∧
    ((tinf_uncompress_go (tinf_init_data dest src) fuel).2).dest.length = dest.length ∧
    Inv ((tinf_uncompress_go (tinf_init_data dest src) fuel).2) := by
  obtain ⟨h1, h2, _, h4⟩ := evolves_uncompress_go fuel (tinf_init_data dest src)
  exact ⟨h1, h2, h4 (inv_init dest src)⟩

theorem uncompress_state_eq (dest src : List Nat) (fuel : Nat) :
    (tinf_uncompress dest src fuel).2 =
      (tinf_uncompress_go (tinf_init_data dest src) fuel).2 := by
  unfold tinf_uncompress
  split
  next heq => rw [heq]
  next res d1 heq =>
    rw [heq]
    split
    · rfl
    · split <;> rfl

/-- Claim C1: tinf_uncompress zeroes *destLen on entry and writes the
produced byte count into *destLen only when it returns TINF_OK; on every
error return (data error or buffer error) *destLen is left zero, while
output bytes already written remain in place in the destination buffer
(the returned buffer is the mutated buffer itself). -/
theorem tinf_c1_destLen_contract (dest src : List Nat) (fuel : Nat)
    (res : Int) (out : List Nat) (len : Nat) (d' : TinfData)
    (h : tinf_uncompress dest src fuel = (some (res, out, len), d')) :
    (res ≠ TINF_OK → len = 0) ∧
    (res = TINF_OK → len = d'.destLen ∧ len = d'.destPos) ∧
    out = d'.dest := by
  unfold tinf_uncompress at h
  split at h
  next heq => simp at h
  next res0 d1 heq =>
    have hd1 : d1 = (tinf_uncompress_go (tinf_init_data dest src) fuel).2 := by
      rw [heq]
    split at h
    next hres0 =>
      simp only [Prod.mk.injEq, Option.some.injEq] at h
      obtain ⟨⟨h1, h2, h3⟩, h4⟩ := h
      subst h1 h2 h3 h4
      refine ⟨fun _ => rfl, fun hOK => absurd hOK hres0, rfl⟩
    next hres0 =>
      split at h
      next hov =>
        simp only [Prod.mk.injEq, Option.some.injEq] at h
        obtain ⟨⟨h1, h2, h3⟩, h4⟩ := h
        subst h1 h2 h3 h4
        refine ⟨fun _ => rfl, fun hOK => absurd hOK (by decide), rfl⟩
      next hov =>
        simp only [Prod.mk.injEq, Option.some.injEq] at h
        obtain ⟨⟨h1, h2, h3⟩, h4⟩ := h
        subst h1 h2 h3 h4
        refine ⟨fun hne => absurd rfl hne, fun _ => ⟨rfl, ?_⟩, rfl⟩
        obtain ⟨_, _, hInv⟩ := uncompress_final_inv dest src fuel
        rw [← hd1] at hInv
        exact hInv.2.2.1

theorem tinf_c1_witness :
    ((TINF_DATA_ERROR ≠ TINF_OK → (0 : Nat) = 0) ∧
     (TINF_DATA_ERROR = TINF_OK →
       (0 : Nat) = ((tinf_uncompress [] [] 4).2).destLen ∧
       (0 : Nat) = ((tinf_uncompress [] [] 4).2).destPos) ∧
     ([] : List Nat) = ((tinf_uncompress [] [] 4).2).dest) :=
  tinf_c1_destLen_contract [] [] 4 TINF_DATA_ERROR [] 0
    ((tinf_uncompress [] [] 4).2) (by decide)

/-- Claim C2: for every input, tinf_uncompress never reads a byte at or
beyond source + sourceLen and never writes a byte at or beyond dest + the
capacity passed in *destLen; every access in the ghost trace of any run
(including runs ending in an error) is within those bounds.  The
back-reference reads of earlier output also stay below the capacity. -/
theorem tinf_c2_memory_safety (dest src : List Nat) (fuel : Nat) :
    ∀ a ∈ ((tinf_uncompress dest src fuel).2).log,
      (∀ i, a = Access.srcRead i → i < src.length) ∧
      (∀ i, a = Access.destWrite i → i < dest.length) ∧
      (∀ i c, a = Access.destRead i c → i < (dest.length : Int)) := by
  intro a ha
  rw [uncompress_state_eq] at ha
  obtain ⟨hsrc, hcap, hInv⟩ := uncompress_final_inv dest src fuel
  obtain ⟨_, _, _, hlog⟩ := hInv
  have hOK := hlog a ha
  refine ⟨?_, ?_, ?_⟩
  · rintro i rfl
    have h2 : i < ((tinf_uncompress_go (tinf_init_data dest src) fuel).2).src.length := hOK
    rw [hsrc] at h2
    exact h2
  · rintro i rfl
    have h2 : i < ((tinf_uncompress_go (tinf_init_data dest src) fuel).2).dest.length := hOK
    rw [hcap] at h2
    exact h2
  · rintro i c rfl
    have h2 : i < (((tinf_uncompress_go (tinf_init_data dest src) fuel).2).dest.length : Int) :=
      hOK.2.2
    rw [hcap] at h2
    exact h2

theorem tinf_c2_witness :
    Access.srcRead 0 ∈
      ((tinf_uncompress (List.replicate 3 0)
        [1, 3, 0, 252, 255, 97, 98, 99] 8).2).log ∧
    ((∀ i, Access.srcRead 0 = Access.srcRead i →
        i < ([1, 3, 0, 252, 255, 97, 98, 99] : List Nat).length) ∧
     (∀ i, Access.srcRead 0 = Access.destWrite i →
        i < (List.replicate 3 (0 : Nat)).length) ∧
     (∀ i c, Access.srcRead 0 = Access.destRead i c →
        i < ((List.replicate 3 (0 : Nat)).length : Int))) :=
  ⟨by decide, tinf_c2_memory_safety (List.replicate 3 0)
    [1, 3, 0, 252, 255, 97, 98, 99] 8 (Access.srcRead 0) (by decide)⟩

/-- Claim C4: in the symbol loop, before any bytes are copied for a
back-reference, the decoded offset satisfies offset <= dest_written (an
offset greater than the number of bytes already written is rejected with
TINF_DATA_ERROR and the copy does not run), so every back-reference copy
reads only output positions already written: every destRead of the ghost
trace of a run lands at an index that is nonnegative and strictly below
the write cursor at the time of the read. -/
theorem tinf_c4_distance_reachability :
    (∀ (d : TinfData) (length offs : Nat), d.destLen < offs →
      tinf_backref d length offs = (some TINF_DATA_ERROR, d)) ∧
    (∀ (dest src : List Nat) (fuel : Nat) (i : Int) (c : Nat),
      Access.destRead i c ∈ ((tinf_uncompress dest src fuel).2).log →
      0 ≤ i ∧ i < (c : Int)) := by
  constructor
  · intro d length offs hlt
    unfold tinf_backref
    rw [if_pos hlt]
  · intro dest src fuel i c hmem
    rw [uncompress_state_eq] at hmem
    obtain ⟨hsrc, hcap, hInv⟩ := uncompress_final_inv dest src fuel
    obtain ⟨_, _, _, hlog⟩ := hInv
    have hOK := hlog _ hmem
    exact ⟨hOK.1, hOK.2.1⟩

theorem tinf_c4_witness :
    (tinf_backref (tinf_init_data [0] [0]) 5 3 =
      (some TINF_DATA_ERROR, tinf_init_data [0] [0])) ∧
    ((0 : Int) ≤ 1 ∧ (1 : Int) < ((2 : Nat) : Int)) :=
  ⟨tinf_c4_distance_reachability.1 (tinf_init_data [0] [0]) 5 3 (by decide),
   tinf_c4_distance_reachability.2 (List.replicate 8 0) [75, 76, 132, 0, 0] 64 1 2
     (by decide)⟩

theorem tinf_copy_match_one_run :
    ∀ (n i : Nat) (d : TinfData) (a : Nat),
      1 ≤ d.destPos + i → d.destPos + i + n ≤ d.dest.length →
      d.dest.getD (d.destPos + i - 1) 0 = a →
      (∀ k, i ≤ k → k < i + n →
        (tinf_copy_match 1 d i n).dest.getD (d.destPos + k) 0 = a) ∧
      (∀ j, j < d.destPos + i ∨ d.destPos + i + n ≤ j →
        (tinf_copy_match 1 d i n).dest.getD j 0 = d.dest.getD j 0) := by
  intro n
  induction n with
  | zero =>
    intro i d a _ _ _
    exact ⟨fun k hk1 hk2 => absurd hk2 (by omega), fun j _ => rfl⟩
  | succ n ih =>
    intro i d a h1 hcap hlast
    simp only [tinf_copy_match]
    have htn : ((d.destPos : Int) + (i : Int) - ((1 : Nat) : Int)).toNat =
        d.destPos + i - 1 := by omega
    rw [htn, hlast]
    set d1 : TinfData :=
      { d with
          dest := d.dest.set (d.destPos + i) a
          log := Access.destWrite (d.destPos + i) ::
            Access.destRead ((d.destPos : Int) + (i : Int) - ((1 : Nat) : Int))
              (d.destPos + i) :: d.log }
      with hd1
    have hlt : d.destPos + i < d.dest.length := by omega
    have hih := ih (i + 1) d1 a (by simp only [hd1]; omega)
      (by simp only [hd1, List.length_set]; omega)
      (by
        show (d.dest.set (d.destPos + i) a).getD (d.destPos + (i + 1) - 1) 0 = a
        rw [show d.destPos + (i + 1) - 1 = d.destPos + i by omega]
        exact getD_set_self a hlt)
    obtain ⟨ihc, ihu⟩ := hih
    constructor
    · intro k hk1 hk2
      rcases Nat.eq_or_lt_of_le hk1 with rfl | hk1'
      · have hu := ihu (d.destPos + i) (by simp only [hd1]; omega)
        rw [hu]
        show (d.dest.set (d.destPos + i) a).getD (d.destPos + i) 0 = a
        exact getD_set_self a (by omega)
      · have hc := ihc k (by omega) (by omega)
        exact hc
    · intro j hj
      have hu := ihu j (by simp only [hd1]; omega)
      rw [hu]
      show (d.dest.set (d.destPos + i) a).getD j 0 = d.dest.getD j 0
      exact getD_set_ne a (by omega)

/-- Claim C5: the back-reference copy runs in ascending output positions
with dest[i] = dest[i - offset] (definition tinf_copy_match), so for
offset 1 the copy propagates the just-written byte: if the last written
byte is a, the copy appends n copies of a, leaving all other positions
unchanged.  The claim's instance is offset 1, length 5, byte 65 (the
letter A), appending AAAAA. -/
theorem tinf_c5_overlap_copy (d : TinfData) (n a : Nat)
    (h1 : 1 ≤ d.destPos) (h2 : d.destPos + n ≤ d.dest.length)
    (h3 : d.dest.getD (d.destPos - 1) 0 = a) :
    (∀ k < n, (tinf_copy_match 1 d 0 n).dest.getD (d.destPos + k) 0 = a) ∧
    (∀ j, j < d.destPos ∨ d.destPos + n ≤ j →
      (tinf_copy_match 1 d 0 n).dest.getD j 0 = d.dest.getD j 0) ∧
    (tinf_copy_match 1 d 0 n).destPos = d.destPos ∧
    (tinf_copy_match 1 d 0 n).dest.length = d.dest.length := by
  obtain ⟨hc, hu⟩ := tinf_copy_match_one_run n 0 d a (by omega) (by omega)
    (by rw [show d.destPos + 0 - 1 = d.destPos - 1 by omega]; exact h3)
  have hf := tinf_copy_match_fields 1 n 0 d
  refine ⟨fun k hk => hc k (by omega) (by omega), fun j hj => hu j (by omega),
    hf.2.2.2.2.2.1, hf.2.2.2.2.2.2.2⟩

theorem tinf_c5_witness :
    (∀ k < 5,
      (tinf_copy_match 1
        { tinf_init_data [65, 0, 0, 0, 0, 0] [] with destPos := 1, destLen := 1 }
        0 5).dest.getD
        ({ tinf_init_data [65, 0, 0, 0, 0, 0] [] with destPos := 1, destLen := 1 }.destPos + k)
        0 = 65) ∧
    (∀ j, j < { tinf_init_data [65, 0, 0, 0, 0, 0] [] with
        destPos := 1, destLen := 1 }.destPos ∨
      { tinf_init_data [65, 0, 0, 0, 0, 0] [] with
        destPos := 1, destLen := 1 }.destPos + 5 ≤ j →
      (tinf_copy_match 1
        { tinf_init_data [65, 0, 0, 0, 0, 0] [] with destPos := 1, destLen := 1 }
        0 5).dest.getD j 0 =
      { tinf_init_data [65, 0, 0, 0, 0, 0] [] with
        destPos := 1, destLen := 1 }.dest.getD j 0) ∧
    (tinf_copy_match 1
      { tinf_init_data [65, 0, 0, 0, 0, 0] [] with destPos := 1, destLen := 1 }
      0 5).destPos =
      { tinf_init_data [65, 0, 0, 0, 0, 0] [] with destPos := 1, destLen := 1 }.destPos ∧
    (tinf_copy_match 1
      { tinf_init_data [65, 0, 0, 0, 0, 0] [] with destPos := 1, destLen := 1 }
      0 5).dest.length =
      { tinf_init_data [65, 0, 0, 0, 0, 0] [] with destPos := 1, destLen := 1 }.dest.length :=
  tinf_c5_overlap_copy
    { tinf_init_data [65, 0, 0, 0, 0, 0] [] with destPos := 1, destLen := 1 }
    5 65 (by decide) (by decide) (by decide)

theorem tinf_refill_go_exhausted {num : Nat} :
    ∀ (k : Nat) (d : TinfData), d.srcPos = d.src.length →
      (tinf_refill_go num d k).tag = d.tag ∧
      (tinf_refill_go num d k).srcPos = d.srcPos := by
  intro k
  induction k with
  | zero => intro d _; exact ⟨rfl, rfl⟩
  | succ k ih =>
    intro d hs
    unfold tinf_refill_go
    split
    next hb =>
      have hstep : tinf_refill_step d =
          { d with overflow := true, bitcount := d.bitcount + 8 } := by
        unfold tinf_refill_step
        rw [if_neg (not_not_intro hs)]
      rw [hstep]
      exact ih _ hs
    next => exact ⟨rfl, rfl⟩

theorem tinf_refill_overflow_set (d : TinfData) (num : Nat)
    (hs : d.srcPos = d.src.length) (hb : d.bitcount < num) :
    (tinf_refill d num).overflow = true := by
  rw [tinf_refill_eq, if_pos hb]
  have hstep : tinf_refill_step d =
      { d with overflow := true, bitcount := d.bitcount + 8 } := by
    unfold tinf_refill_step
    rw [if_neg (not_not_intro hs)]
  rw [hstep]
  exact (evolves_refill _ num).2.2.1 rfl

/-- Claim C7: the overflow flag is sticky and surfaces as a data error: a
refill past source_end sets overflow; once set it is never cleared through
any later read or block; while the source is exhausted, refills add only
zero bits (the tag is unchanged and the cursor does not move, so the bits
a subsequent read delivers are the old tag bits padded with zeroes); the
symbol loop turns an overflow into TINF_DATA_ERROR right after decoding a
symbol; and tinf_uncompress returns TINF_OK only with the flag clear, so a
truncated stream never yields TINF_OK. -/
theorem tinf_c7_overflow_sticky :
    (∀ (d : TinfData) (num : Nat), d.overflow = true →
      ((tinf_getbits d num).2).overflow = true) ∧
    (∀ (d : TinfData) (num : Nat), d.srcPos = d.src.length →
      (tinf_refill d num).tag = d.tag ∧ (tinf_refill d num).srcPos = d.srcPos ∧
      (tinf_getbits d num).1 = d.tag &&& (2 ^ num - 1)) ∧
    (∀ (d : TinfData) (num : Nat), d.srcPos = d.src.length → d.bitcount < num →
      (tinf_refill d num).overflow = true) ∧
    (∀ (d : TinfData) (lt dt : TinfTree) (fuel : Nat), d.overflow = true →
      (tinf_inflate_block_step d lt dt fuel).1 = none ∨
      (tinf_inflate_block_step d lt dt fuel).1 = some (some TINF_DATA_ERROR)) ∧
    (∀ (d : TinfData) (fuel : Nat), d.overflow = true →
      ((tinf_uncompress_go d fuel).2).overflow = true) ∧
    (∀ (dest src : List Nat) (fuel : Nat) (res : Int) (out : List Nat) (len : Nat),
      (tinf_uncompress dest src fuel).1 = some (res, out, len) → res = TINF_OK →
      ((tinf_uncompress dest src fuel).2).overflow = false) := by
  refine ⟨?_, ?_, ?_, ?_, ?_, ?_⟩
  · intro d num h
    exact (evolves_getbits d num).2.2.1 h
  · intro d num hs
    obtain ⟨ht, hp⟩ := tinf_refill_go_exhausted num d hs
    refine ⟨ht, hp, ?_⟩
    show (tinf_refill_go num d num).tag &&& (2 ^ num - 1) = d.tag &&& (2 ^ num - 1)
    rw [ht]
  · exact tinf_refill_overflow_set
  · intro d lt dt fuel h
    simp only [tinf_inflate_block_step]
    split
    next d1 heq => exact Or.inl rfl
    next sym d1 heq =>
      have h1 : d1.overflow = true := by
        have he := evolves_decode_symbol d lt fuel
        rw [heq] at he
        exact he.2.2.1 h
      rw [if_pos h1]
      exact Or.inr rfl
  · intro d fuel h
    exact (evolves_uncompress_go fuel d).2.2.1 h
  · intro dest src fuel res out len h hOK
    unfold tinf_uncompress at h ⊢
    split at h
    next heq => simp at h
    next res0 d1 heq =>
      split at h
      next hres0 =>
        simp only [Prod.mk.injEq, Option.some.injEq] at h
        exact absurd (h.1.trans hOK) hres0
      next hres0 =>
        split at h
        next hov =>
          simp only [Prod.mk.injEq, Option.some.injEq] at h
          have : TINF_DATA_ERROR = TINF_OK := h.1.trans hOK
          exact absurd this (by decide)
        next hov =>
          have hovf : d1.overflow = false := by simpa using hov
          rw [if_neg hres0, if_neg hov]
          exact hovf

theorem tinf_c7_witness :
    (((tinf_getbits (tinf_init_data [] []) 1).2).overflow = true →
      ((tinf_getbits ((tinf_getbits (tinf_init_data [] []) 1).2) 1).2).overflow = true) ∧
    ((tinf_refill (tinf_init_data [] []) 3).tag = (tinf_init_data [] []).tag ∧
     (tinf_refill (tinf_init_data [] []) 3).srcPos = (tinf_init_data [] []).srcPos ∧
     (tinf_getbits (tinf_init_data [] []) 3).1 = (tinf_init_data [] []).tag &&& (2 ^ 3 - 1)) ∧
    ((tinf_refill (tinf_init_data [] []) 3).overflow = true) ∧
    (((tinf_uncompress_go { tinf_init_data [] [] with overflow := true } 2).2).overflow = true) :=
  ⟨fun h => tinf_c7_overflow_sticky.1 ((tinf_getbits (tinf_init_data [] []) 1).2) 1 h,
   tinf_c7_overflow_sticky.2.1 (tinf_init_data [] []) 3 (by decide),
   tinf_c7_overflow_sticky.2.2.1 (tinf_init_data [] []) 3 (by decide) (by decide),
   tinf_c7_overflow_sticky.2.2.2.2.1 { tinf_init_data [] [] with overflow := true } 2 (by decide)⟩

/-- Claim C10: starting from a resting bit reader (bitcount < 8, all tag
bits valid) and a request of the widths the decoder actually uses
(num <= 25; the real calls use at most 13), refill reaches at least num
valid bits while bitcount stays at most 32 and the tag keeps only valid
bits; after the complete tinf_getbits call at most 7 unconsumed bits
remain; each refill iteration shifts the byte by less than 25 bits, so
(byte << bitcount) fits in 32 bits and the C truncation mod 2^32 drops
nothing; and the stored-block reset puts the reader on a byte boundary
(tag 0, bitcount 0), discarding only the unread remainder already counted
in bitcount < 8. -/
theorem tinf_c10_bit_reader_invariant (d : TinfData) (num : Nat)
    (hnum : num ≤ 25) (hbc : d.bitcount < 8)
    (hsrc : ∀ b ∈ d.src, b < 256) (htag : d.tag < 2 ^ d.bitcount) :
    (num ≤ (tinf_refill d num).bitcount ∧
     (tinf_refill d num).bitcount ≤ 32 ∧
     (tinf_refill d num).tag < 2 ^ (tinf_refill d num).bitcount) ∧
    (((tinf_getbits d num).2).bitcount < 8 ∧
     ((tinf_getbits d num).2).tag < 2 ^ ((tinf_getbits d num).2).bitcount) ∧
    (∀ e : TinfData, e.bitcount < num → e.srcPos < e.src.length →
      (∀ b ∈ e.src, b < 256) →
      (tinf_refill_step e).tag = e.tag ||| (e.src.getD e.srcPos 0 <<< e.bitcount)) ∧
    (∀ (e e' : TinfData), tinf_inflate_uncompressed_block e = (TINF_OK, e') →
      e'.tag = 0 ∧ e'.bitcount = 0) := by
  have hge : num ≤ (tinf_refill d num).bitcount := tinf_refill_bitcount_ge d num
  have hlt8 : (tinf_refill d num).bitcount < num + 8 :=
    tinf_refill_go_bitcount_lt num d (by omega)
  have htg : (tinf_refill d num).tag < 2 ^ (tinf_refill d num).bitcount :=
    tinf_refill_go_tag_lt num d hsrc htag
  refine ⟨⟨hge, by omega, htg⟩, ⟨?_, ?_⟩, ?_, ?_⟩
  · show (tinf_refill d num).bitcount - num < 8
    omega
  · show (tinf_refill d num).tag >>> num <
      2 ^ ((tinf_refill d num).bitcount - num)
    exact shiftRight_lt_pow htg hge
  · intro e hb hs hsrce
    exact tinf_refill_step_tag_exact e (by omega) hs hsrce
  · intro e e' h
    simp only [tinf_inflate_uncompressed_block, read_le16] at h
    split at h
    next =>
      have h1 : TINF_DATA_ERROR = TINF_OK := congrArg Prod.fst h
      exact absurd h1 (by decide)
    next =>
      split at h
      next =>
        have h1 : TINF_DATA_ERROR = TINF_OK := congrArg Prod.fst h
        exact absurd h1 (by decide)
      next =>
        split at h
        next =>
          have h1 : TINF_DATA_ERROR = TINF_OK := congrArg Prod.fst h
          exact absurd h1 (by decide)
        next =>
          split at h
          next =>
            have h1 : TINF_BUF_ERROR = TINF_OK := congrArg Prod.fst h
            exact absurd h1 (by decide)
          next =>
            simp only [Prod.mk.injEq] at h
            rw [← h.2]
            exact ⟨rfl, rfl⟩

theorem tinf_c10_witness :
    ((3 ≤ (tinf_refill (tinf_init_data [] [170, 204]) 3).bitcount ∧
      (tinf_refill (tinf_init_data [] [170, 204]) 3).bitcount ≤ 32 ∧
      (tinf_refill (tinf_init_data [] [170, 204]) 3).tag <
        2 ^ (tinf_refill (tinf_init_data [] [170, 204]) 3).bitcount) ∧
     (((tinf_getbits (tinf_init_data [] [170, 204]) 3).2).bitcount < 8 ∧
      ((tinf_getbits (tinf_init_data [] [170, 204]) 3).2).tag <
        2 ^ ((tinf_getbits (tinf_init_data [] [170, 204]) 3).2).bitcount) ∧
     (∀ e : TinfData, e.bitcount < 3 → e.srcPos < e.src.length →
       (∀ b ∈ e.src, b < 256) →
       (tinf_refill_step e).tag = e.tag ||| (e.src.getD e.srcPos 0 <<< e.bitcount)) ∧
     (∀ (e e' : TinfData), tinf_inflate_uncompressed_block e = (TINF_OK, e') →
       e'.tag = 0 ∧ e'.bitcount = 0)) :=
  tinf_c10_bit_reader_invariant (tinf_init_data [] [170, 204]) 3
    (by decide) (by decide) (by decide) (by decide)

/-- Claim C6: for a stored block, if the 16-bit little-endian length field
does not equal the one's complement of the following 16-bit field,
tinf_inflate_uncompressed_block returns TINF_DATA_ERROR; if it matches and
length bytes remain in the source and fit in the output region, exactly the
next length source bytes are copied bit-for-bit to the output (all other
output positions unchanged) and dest_written increases by length.  With
source bytes below 256 the C complement check
length != (~invlength & 0xFFFF) is the same as length != 65535 - invlength. -/
theorem tinf_c6_stored_block (d : TinfData)
    (hbytes : ∀ b ∈ d.src, b < 256)
    (h4 : d.srcPos + 4 ≤ d.src.length)
    (hdp : d.destPos ≤ d.dest.length) :
    ((d.src.getD d.srcPos 0 ||| d.src.getD (d.srcPos + 1) 0 <<< 8) ≠
        65535 - (d.src.getD (d.srcPos + 2) 0 ||| d.src.getD (d.srcPos + 2 + 1) 0 <<< 8) →
      (tinf_inflate_uncompressed_block d).1 = TINF_DATA_ERROR) ∧
    ((d.src.getD d.srcPos 0 ||| d.src.getD (d.srcPos + 1) 0 <<< 8) =
        65535 - (d.src.getD (d.srcPos + 2) 0 ||| d.src.getD (d.srcPos + 2 + 1) 0 <<< 8) →
      d.srcPos + 4 + (d.src.getD d.srcPos 0 ||| d.src.getD (d.srcPos + 1) 0 <<< 8) ≤
        d.src.length →
      d.destPos + (d.src.getD d.srcPos 0 ||| d.src.getD (d.srcPos + 1) 0 <<< 8) ≤
        d.dest.length →
      (tinf_inflate_uncompressed_block d).1 = TINF_OK ∧
      ((tinf_inflate_uncompressed_block d).2).destLen =
        d.destLen + (d.src.getD d.srcPos 0 ||| d.src.getD (d.srcPos + 1) 0 <<< 8) ∧
      ((tinf_inflate_uncompressed_block d).2).destPos =
        d.destPos + (d.src.getD d.srcPos 0 ||| d.src.getD (d.srcPos + 1) 0 <<< 8) ∧
      ((tinf_inflate_uncompressed_block d).2).srcPos =
        d.srcPos + 4 + (d.src.getD d.srcPos 0 ||| d.src.getD (d.srcPos + 1) 0 <<< 8) ∧
      (∀ k < (d.src.getD d.srcPos 0 ||| d.src.getD (d.srcPos + 1) 0 <<< 8),
        ((tinf_inflate_uncompressed_block d).2).dest.getD (d.destPos + k) 0 =
          d.src.getD (d.srcPos + 4 + k) 0) ∧
      (∀ j, j < d.destPos ∨
          d.destPos + (d.src.getD d.srcPos 0 ||| d.src.getD (d.srcPos + 1) 0 <<< 8) ≤ j →
        ((tinf_inflate_uncompressed_block d).2).dest.getD j 0 = d.dest.getD j 0)) := by
  have hI : (d.src.getD (d.srcPos + 2) 0 ||| d.src.getD (d.srcPos + 2 + 1) 0 <<< 8) <
      2 ^ 16 := by
    have hb2 : d.src.getD (d.srcPos + 2) 0 < 256 := getD_lt_of_mem hbytes (by norm_num)
    have hb3 : d.src.getD (d.srcPos + 2 + 1) 0 < 256 := getD_lt_of_mem hbytes (by norm_num)
    apply Nat.or_lt_two_pow
    · omega
    · rw [Nat.shiftLeft_eq]
      omega
  have hmask : ((2 ^ 32 - 1 -
      (d.src.getD (d.srcPos + 2) 0 ||| d.src.getD (d.srcPos + 2 + 1) 0 <<< 8)) &&& 65535) =
      65535 - (d.src.getD (d.srcPos + 2) 0 ||| d.src.getD (d.srcPos + 2 + 1) 0 <<< 8) := by
    rw [show (65535 : Nat) = 2 ^ 16 - 1 by norm_num,
      Nat.and_pow_two_sub_one_eq_mod]
    omega
  constructor
  · intro hne
    simp only [tinf_inflate_uncompressed_block, read_le16]
    split
    next => rfl
    next hc =>
      split
      next => rfl
      next hmm =>
        exfalso
        have hLM : (d.src.getD d.srcPos 0 ||| d.src.getD (d.srcPos + 1) 0 <<< 8) =
            ((2 ^ 32 - 1 -
              (d.src.getD (d.srcPos + 2) 0 ||| d.src.getD (d.srcPos + 2 + 1) 0 <<< 8)) &&&
              65535) := not_not.mp hmm
        rw [hmask] at hLM
        exact hne hLM
  · intro hmtc hsrcL hdstL
    have hmm : (d.src.getD d.srcPos 0 ||| d.src.getD (d.srcPos + 1) 0 <<< 8) =
        ((2 ^ 32 - 1 -
          (d.src.getD (d.srcPos + 2) 0 ||| d.src.getD (d.srcPos + 2 + 1) 0 <<< 8)) &&&
          65535) := by
      rw [hmask]; exact hmtc
    simp only [tinf_inflate_uncompressed_block, read_le16]
    split
    next hc =>
      exfalso
      have hc2 : d.src.length - d.srcPos < 4 := hc
      omega
    next hc =>
      split
      next hne => exact absurd hmm hne
      next hne =>
        split
        next hs2 =>
          exfalso
          have hs3 : d.src.length - (d.srcPos + 4) <
              (d.src.getD d.srcPos 0 ||| d.src.getD (d.srcPos + 1) 0 <<< 8) := hs2
          omega
        next hs2 =>
          split
          next hd2 =>
            exfalso
            have hd3 : d.dest.length - d.destPos <
                (d.src.getD d.srcPos 0 ||| d.src.getD (d.srcPos + 1) 0 <<< 8) := hd2
            omega
          next hd2 =>
            obtain ⟨f1, f2, f3, f4, f5, f6, f7, f8, f9, f10⟩ :=
              tinf_copy_stored_fields
                (d.src.getD d.srcPos 0 ||| d.src.getD (d.srcPos + 1) 0 <<< 8)
                { d with
        srcPos := d.srcPos + 4
        log := Access.srcRead (d.srcPos + 2 + 1) :: Access.srcRead (d.srcPos + 2) ::
          Access.srcRead (d.srcPos + 1) :: Access.srcRead d.srcPos :: d.log }
            obtain ⟨hc1, hc2⟩ :=
              tinf_copy_stored_content
                (d.src.getD d.srcPos 0 ||| d.src.getD (d.srcPos + 1) 0 <<< 8)
                { d with
        srcPos := d.srcPos + 4
        log := Access.srcRead (d.srcPos + 2 + 1) :: Access.srcRead (d.srcPos + 2) ::
          Access.srcRead (d.srcPos + 1) :: Access.srcRead d.srcPos :: d.log }
                (by
                  show d.destPos +
                    (d.src.getD d.srcPos 0 ||| d.src.getD (d.srcPos + 1) 0 <<< 8) ≤
                    d.dest.length
                  omega)
            refine ⟨rfl, ?_, ?_, ?_, ?_, ?_⟩
            · show (tinf_copy_stored { d with
        srcPos := d.srcPos + 4
        log := Access.srcRead (d.srcPos + 2 + 1) :: Access.srcRead (d.srcPos + 2) ::
          Access.srcRead (d.srcPos + 1) :: Access.srcRead d.srcPos :: d.log }
                  (d.src.getD d.srcPos 0 ||| d.src.getD (d.srcPos + 1) 0 <<< 8)).destLen +
                  (d.src.getD d.srcPos 0 ||| d.src.getD (d.srcPos + 1) 0 <<< 8) =
                d.destLen + (d.src.getD d.srcPos 0 ||| d.src.getD (d.srcPos + 1) 0 <<< 8)
              rw [f4]
            · show (tinf_copy_stored { d with
        srcPos := d.srcPos + 4
        log := Access.srcRead (d.srcPos + 2 + 1) :: Access.srcRead (d.srcPos + 2) ::
          Access.srcRead (d.srcPos + 1) :: Access.srcRead d.srcPos :: d.log }
                  (d.src.getD d.srcPos 0 ||| d.src.getD (d.srcPos + 1) 0 <<< 8)).destPos =
                d.destPos + (d.src.getD d.srcPos 0 ||| d.src.getD (d.srcPos + 1) 0 <<< 8)
              rw [f3]
            · show (tinf_copy_stored { d with
        srcPos := d.srcPos + 4
        log := Access.srcRead (d.srcPos + 2 + 1) :: Access.srcRead (d.srcPos + 2) ::
          Access.srcRead (d.srcPos + 1) :: Access.srcRead d.srcPos :: d.log }
                  (d.src.getD d.srcPos 0 ||| d.src.getD (d.srcPos + 1) 0 <<< 8)).srcPos =
                d.srcPos + 4 + (d.src.getD d.srcPos 0 ||| d.src.getD (d.srcPos + 1) 0 <<< 8)
              rw [f2]
            · intro k hk
              exact hc1 k hk
            · intro j hj
              exact hc2 j hj

theorem tinf_c6_witness :
    (((tinf_init_data [0, 0, 0] [3, 0, 252, 255, 97, 98, 99]).src.getD (tinf_init_data [0, 0, 0] [3, 0, 252, 255, 97, 98, 99]).srcPos 0 ||| (tinf_init_data [0, 0, 0] [3, 0, 252, 255, 97, 98, 99]).src.getD ((tinf_init_data [0, 0, 0] [3, 0, 252, 255, 97, 98, 99]).srcPos + 1) 0 <<< 8) ≠
        65535 - ((tinf_init_data [0, 0, 0] [3, 0, 252, 255, 97, 98, 99]).src.getD ((tinf_init_data [0, 0, 0] [3, 0, 252, 255, 97, 98, 99]).srcPos + 2) 0 ||| (tinf_init_data [0, 0, 0] [3, 0, 252, 255, 97, 98, 99]).src.getD ((tinf_init_data [0, 0, 0] [3, 0, 252, 255, 97, 98, 99]).srcPos + 2 + 1) 0 <<< 8) →
      (tinf_inflate_uncompressed_block (tinf_init_data [0, 0, 0] [3, 0, 252, 255, 97, 98, 99])).1 = TINF_DATA_ERROR) ∧
    (((tinf_init_data [0, 0, 0] [3, 0, 252, 255, 97, 98, 99]).src.getD (tinf_init_data [0, 0, 0] [3, 0, 252, 255, 97, 98, 99]).srcPos 0 ||| (tinf_init_data [0, 0, 0] [3, 0, 252, 255, 97, 98, 99]).src.getD ((tinf_init_data [0, 0, 0] [3, 0, 252, 255, 97, 98, 99]).srcPos + 1) 0 <<< 8) =
        65535 - ((tinf_init_data [0, 0, 0] [3, 0, 252, 255, 97, 98, 99]).src.getD ((tinf_init_data [0, 0, 0] [3, 0, 252, 255, 97, 98, 99]).srcPos + 2) 0 ||| (tinf_init_data [0, 0, 0] [3, 0, 252, 255, 97, 98, 99]).src.getD ((tinf_init_data [0, 0, 0] [3, 0, 252, 255, 97, 98, 99]).srcPos + 2 + 1) 0 <<< 8) →
      (tinf_init_data [0, 0, 0] [3, 0, 252, 255, 97, 98, 99]).srcPos + 4 + ((tinf_init_data [0, 0, 0] [3, 0, 252, 255, 97, 98, 99]).src.getD (tinf_init_data [0, 0, 0] [3, 0, 252, 255, 97, 98, 99]).srcPos 0 ||| (tinf_init_data [0, 0, 0] [3, 0, 252, 255, 97, 98, 99]).src.getD ((tinf_init_data [0, 0, 0] [3, 0, 252, 255, 97, 98, 99]).srcPos + 1) 0 <<< 8) ≤
        (tinf_init_data [0, 0, 0] [3, 0, 252, 255, 97, 98, 99]).src.length →
      (tinf_init_data [0, 0, 0] [3, 0, 252, 255, 97, 98, 99]).destPos + ((tinf_init_data [0, 0, 0] [3, 0, 252, 255, 97, 98, 99]).src.getD (tinf_init_data [0, 0, 0] [3, 0, 252, 255, 97, 98, 99]).srcPos 0 ||| (tinf_init_data [0, 0, 0] [3, 0, 252, 255, 97, 98, 99]).src.getD ((tinf_init_data [0, 0, 0] [3, 0, 252, 255, 97, 98, 99]).srcPos + 1) 0 <<< 8) ≤
        (tinf_init_data [0, 0, 0] [3, 0, 252, 255, 97, 98, 99]).dest.length →
      (tinf_inflate_uncompressed_block (tinf_init_data [0, 0, 0] [3, 0, 252, 255, 97, 98, 99])).1 = TINF_OK ∧
      ((tinf_inflate_uncompressed_block (tinf_init_data [0, 0, 0] [3, 0, 252, 255, 97, 98, 99])).2).destLen =
        (tinf_init_data [0, 0, 0] [3, 0, 252, 255, 97, 98, 99]).destLen + ((tinf_init_data [0, 0, 0] [3, 0, 252, 255, 97, 98, 99]).src.getD (tinf_init_data [0, 0, 0] [3, 0, 252, 255, 97, 98, 99]).srcPos 0 ||| (tinf_init_data [0, 0, 0] [3, 0, 252, 255, 97, 98, 99]).src.getD ((tinf_init_data [0, 0, 0] [3, 0, 252, 255, 97, 98, 99]).srcPos + 1) 0 <<< 8) ∧
      ((tinf_inflate_uncompressed_block (tinf_init_data [0, 0, 0] [3, 0, 252, 255, 97, 98, 99])).2).destPos =
        (tinf_init_data [0, 0, 0] [3, 0, 252, 255, 97, 98, 99]).destPos + ((tinf_init_data [0, 0, 0] [3, 0, 252, 255, 97, 98, 99]).src.getD (tinf_init_data [0, 0, 0] [3, 0, 252, 255, 97, 98, 99]).srcPos 0 ||| (tinf_init_data [0, 0, 0] [3, 0, 252, 255, 97, 98, 99]).src.getD ((tinf_init_data [0, 0, 0] [3, 0, 252, 255, 97, 98, 99]).srcPos + 1) 0 <<< 8) ∧
      ((tinf_inflate_uncompressed_block (tinf_init_data [0, 0, 0] [3, 0, 252, 255, 97, 98, 99])).2).srcPos =
        (tinf_init_data [0, 0, 0] [3, 0, 252, 255, 97, 98, 99]).srcPos + 4 + ((tinf_init_data [0, 0, 0] [3, 0, 252, 255, 97, 98, 99]).src.getD (tinf_init_data [0, 0, 0] [3, 0, 252, 255, 97, 98, 99]).srcPos 0 ||| (tinf_init_data [0, 0, 0] [3, 0, 252, 255, 97, 98, 99]).src.getD ((tinf_init_data [0, 0, 0] [3, 0, 252, 255, 97, 98, 99]).srcPos + 1) 0 <<< 8) ∧
      (∀ k < ((tinf_init_data [0, 0, 0] [3, 0, 252, 255, 97, 98, 99]).src.getD (tinf_init_data [0, 0, 0] [3, 0, 252, 255, 97, 98, 99]).srcPos 0 ||| (tinf_init_data [0, 0, 0] [3, 0, 252, 255, 97, 98, 99]).src.getD ((tinf_init_data [0, 0, 0] [3, 0, 252, 255, 97, 98, 99]).srcPos + 1) 0 <<< 8),
        ((tinf_inflate_uncompressed_block (tinf_init_data [0, 0, 0] [3, 0, 252, 255, 97, 98, 99])).2).dest.getD ((tinf_init_data [0, 0, 0] [3, 0, 252, 255, 97, 98, 99]).destPos + k) 0 =
          (tinf_init_data [0, 0, 0] [3, 0, 252, 255, 97, 98, 99]).src.getD ((tinf_init_data [0, 0, 0] [3, 0, 252, 255, 97, 98, 99]).srcPos + 4 + k) 0) ∧
      (∀ j, j < (tinf_init_data [0, 0, 0] [3, 0, 252, 255, 97, 98, 99]).destPos ∨
          (tinf_init_data [0, 0, 0] [3, 0, 252, 255, 97, 98, 99]).destPos + ((tinf_init_data [0, 0, 0] [3, 0, 252, 255, 97, 98, 99]).src.getD (tinf_init_data [0, 0, 0] [3, 0, 252, 255, 97, 98, 99]).srcPos 0 ||| (tinf_init_data [0, 0, 0] [3, 0, 252, 255, 97, 98, 99]).src.getD ((tinf_init_data [0, 0, 0] [3, 0, 252, 255, 97, 98, 99]).srcPos + 1) 0 <<< 8) ≤ j →
        ((tinf_inflate_uncompressed_block (tinf_init_data [0, 0, 0] [3, 0, 252, 255, 97, 98, 99])).2).dest.getD j 0 = (tinf_init_data [0, 0, 0] [3, 0, 252, 255, 97, 98, 99]).dest.getD j 0)) :=
  tinf_c6_stored_block (tinf_init_data [0, 0, 0] [3, 0, 252, 255, 97, 98, 99]) (by decide) (by decide) (by decide)

/-- Claim C9, as stated, is false on the code: in the 30-entry length-code
tables the entry at index 29 carries 127 extra bits and base 0 (the
reserved-code guard), not 0 extra bits and base length 258. -/
theorem tinf_c9_counterexample :
    ¬(length_bits.getD 29 0 = 0 ∧ length_base.getD 29 0 = 258) := by decide

/-- Claim C9 amended: in the embedded length-code extra-bits and
base-length tables (30 entries each), the entry for code 28 (the one
selected for symbol 285, the largest valid length code) carries 0 extra
bits and base length 258, while entry 29 is the unreachable guard with
127 extra bits and base 0. -/
theorem tinf_c9_amended :
    length_bits.length = 30 ∧ length_base.length = 30 ∧
    length_bits.getD 28 0 = 0 ∧ length_base.getD 28 0 = 258 ∧
    length_bits.getD 29 0 = 127 ∧ length_base.getD 29 0 = 0 := by decide

theorem map_getD_range (L : List Nat) :
    (List.range L.length).map (fun i => L.getD i 0) = L := by
  apply List.ext_getElem
  · simp
  · intro i h1 h2
    simp only [List.getElem_map, List.getElem_range]
    rw [List.getD_eq_getElem L 0 h2]

theorem countP_range_getD (L : List Nat) (p : Nat → Bool) :
    (List.range L.length).countP (fun i => p (L.getD i 0)) = L.countP p := by
  conv_rhs => rw [← map_getD_range L]
  rw [List.countP_map]
  rfl

theorem getD_replicate_zero (n j : Nat) :
    (List.replicate n (0 : Nat)).getD j 0 = 0 := by
  by_cases h : j < n
  · rw [List.getD_eq_getElem _ _ (by simpa using h)]
    simp
  · rw [List.getD_eq_default _ _ (by simpa using h)]

theorem count_le_sum (L : List Nat) (j : Nat) (hj : j ≠ 0) :
    spec_count L j ≤ spec_sum L := by
  apply List.countP_mono_left
  intro a _ h
  simp only [decide_eq_true_eq] at h ⊢
  omega

theorem count_pair_le_sum (L : List Nat) (j1 j2 : Nat) (h1 : j1 ≠ 0)
    (h2 : j2 ≠ 0) (hne : j1 ≠ j2) :
    spec_count L j1 + spec_count L j2 ≤ spec_sum L := by
  induction L with
  | nil => simp [spec_count, spec_sum]
  | cons l L ih =>
    simp only [spec_count, spec_sum, List.countP_cons, decide_eq_true_eq] at *
    by_cases e1 : l = j1
    · rw [if_pos e1, if_neg (by omega : ¬l = j2), if_pos (by omega : l ≠ 0)]
      omega
    · by_cases e2 : l = j2
      · rw [if_neg e1, if_pos e2, if_pos (by omega : l ≠ 0)]
        omega
      · rw [if_neg e1, if_neg e2]
        split <;> omega

theorem tally_fold_length (lengths : List Nat) :
    ∀ (is : List Nat) (tbl : List Nat) (m : Int),
      ((is.foldl (fun p i =>
        let l := lengths.getD i 0
        (p.1.set l (p.1.getD l 0 + 1), if l ≠ 0 then (i : Int) else p.2))
        (tbl, m)).1).length = tbl.length := by
  intro is
  induction is with
  | nil => intro tbl m; rfl
  | cons i is ih =>
    intro tbl m
    simp only [List.foldl_cons]
    rw [ih]
    exact List.length_set tbl _ _

theorem tally_fold_count (lengths : List Nat) :
    ∀ (is : List Nat) (tbl : List Nat) (m : Int) (j : Nat),
      (∀ i ∈ is, lengths.getD i 0 < tbl.length) →
      ((is.foldl (fun p i =>
        let l := lengths.getD i 0
        (p.1.set l (p.1.getD l 0 + 1), if l ≠ 0 then (i : Int) else p.2))
        (tbl, m)).1).getD j 0 =
        tbl.getD j 0 + is.countP (fun i => decide (lengths.getD i 0 = j)) := by
  intro is
  induction is with
  | nil => intro tbl m j _; simp
  | cons i is ih =>
    intro tbl m j hin
    simp only [List.foldl_cons, List.countP_cons, decide_eq_true_eq]
    have hlen : lengths.getD i 0 < tbl.length := hin i (List.mem_cons_self i is)
    have hih := ih (tbl.set (lengths.getD i 0) (tbl.getD (lengths.getD i 0) 0 + 1))
      (if lengths.getD i 0 ≠ 0 then (i : Int) else m) j
      (by intro x hx; rw [List.length_set]; exact hin x (List.mem_cons_of_mem i hx))
    rw [hih]
    by_cases hlj : lengths.getD i 0 = j
    · subst hlj
      rw [getD_set_self _ hlen, if_pos rfl]
      omega
    · rw [getD_set_ne _ hlj, if_neg hlj]
      omega

theorem tally_fold_snd (lengths : List Nat) :
    ∀ (is : List Nat) (tbl : List Nat) (m : Int),
      ((is.foldl (fun p i =>
        let l := lengths.getD i 0
        (p.1.set l (p.1.getD l 0 + 1), if l ≠ 0 then (i : Int) else p.2))
        (tbl, m)).2) =
        (is.filter (fun i => decide (lengths.getD i 0 ≠ 0))).foldl
          (fun (_ : Int) (i : Nat) => (i : Int)) m := by
  intro is
  induction is with
  | nil => intro tbl m; rfl
  | cons i is ih =>
    intro tbl m
    simp only [List.foldl_cons, List.filter_cons]
    by_cases hi : lengths.getD i 0 ≠ 0
    · rw [if_pos (show decide (lengths.getD i 0 ≠ 0) = true by simpa using hi)]
      simp only [List.foldl_cons]
      rw [ih, if_pos hi]
    · rw [if_neg (show ¬decide (lengths.getD i 0 ≠ 0) = true by simpa using hi)]
      rw [ih, if_neg hi]

theorem tinf_tally_count (L : List Nat) (hL : ∀ l ∈ L, l ≤ 15) (j : Nat) :
    (tinf_tally L L.length).1.getD j 0 = spec_count L j := by
  simp only [tinf_tally]
  rw [tally_fold_count L (List.range L.length) (List.replicate 16 0) (-1) j
    (by
      intro i hi
      rw [List.length_replicate]
      by_cases h : i < L.length
      · have : L.getD i 0 ≤ 15 := by
          rw [List.getD_eq_getElem L 0 h]
          exact hL _ (List.getElem_mem h)
        omega
      · rw [List.getD_eq_default _ _ (by omega)]
        omega)]
  rw [getD_replicate_zero]
  rw [countP_range_getD L (fun l => decide (l = j))]
  simp only [spec_count]
  omega

theorem tinf_tally_length (L : List Nat) :
    (tinf_tally L L.length).1.length = 16 := by
  simp only [tinf_tally]
  rw [tally_fold_length]
  exact List.length_replicate 16 0

theorem tinf_tally_snd (L : List Nat) :
    (tinf_tally L L.length).2 =
      ((List.range L.length).filter (fun i => decide (L.getD i 0 ≠ 0))).foldl
        (fun (_ : Int) (i : Nat) => (i : Int)) (-1) := by
  simp only [tinf_tally]
  rw [tally_fold_snd]

theorem offs_fold_none (table : List Nat) :
    ∀ (is : List Nat),
      (is.foldl (fun acc i =>
      match acc with
      | none => none
      | some (offs, sum, max) =>
        let c := table.getD i 0
        if max < c then none
        else some (offs.set i sum, sum + c, 2 * (max - c))) (none : Option (List Nat × Nat × Nat))) = none := by
  intro is
  induction is with
  | nil => rfl
  | cons i is ih => simpa using ih

theorem offs_fold_pass (table : List Nat) :
    ∀ (i : Nat), (∀ j < i, (table.getD j 0 : Int) ≤ tinf_cap table j) →
      0 ≤ tinf_cap table i ∧
      ∃ offs : List Nat,
        ((List.range i).foldl (fun acc i =>
      match acc with
      | none => none
      | some (offs, sum, max) =>
        let c := table.getD i 0
        if max < c then none
        else some (offs.set i sum, sum + c, 2 * (max - c)))
          (some (List.replicate 16 0, 0, 1))) =
          some (offs, tinf_sum_below table i, (tinf_cap table i).toNat) ∧
        offs.length = 16 ∧
        (∀ j, offs.getD j 0 =
          if j < i ∧ j < 16 then tinf_sum_below table j else 0) := by
  intro i
  induction i with
  | zero =>
    intro _
    refine ⟨by norm_num [tinf_cap], List.replicate 16 0, ?_, by simp, ?_⟩
    · simp [tinf_cap, tinf_sum_below]
    · intro j
      rw [getD_replicate_zero]
      split <;> first | (next h => exact absurd h.1 (by omega)) | rfl
  | succ i ih =>
    intro hpass
    obtain ⟨hcap, offs, hfold, hlen, hget⟩ := ih (fun j hj => hpass j (by omega))
    have hci : (table.getD i 0 : Int) ≤ tinf_cap table i := hpass i (by omega)
    have hcap1 : 0 ≤ tinf_cap table (i + 1) := by
      show 0 ≤ 2 * (tinf_cap table i - (table.getD i 0 : Int))
      omega
    refine ⟨hcap1, offs.set i (tinf_sum_below table i), ?_, ?_, ?_⟩
    · rw [List.range_succ, List.foldl_append, hfold]
      simp only [List.foldl_cons, List.foldl_nil]
      rw [if_neg (by omega : ¬(tinf_cap table i).toNat < table.getD i 0)]
      have hsum : tinf_sum_below table i + table.getD i 0 =
          tinf_sum_below table (i + 1) := rfl
      have hmx : 2 * ((tinf_cap table i).toNat - table.getD i 0) =
          (tinf_cap table (i + 1)).toNat := by
        have : tinf_cap table (i + 1) =
            2 * (tinf_cap table i - (table.getD i 0 : Int)) := rfl
        omega
      rw [hsum, hmx]
    · rw [List.length_set]
      exact hlen
    · intro j
      by_cases hji : j = i
      · subst hji
        by_cases hj16 : j < 16
        · rw [getD_set_self _ (by omega)]
          rw [if_pos ⟨by omega, hj16⟩]
        · rw [List.set_eq_of_length_le (by omega), hget j]
          rw [if_neg (by omega), if_neg (by omega)]
      · rw [getD_set_ne _ (fun h => hji h.symm), hget j]
        by_cases hj : j < i ∧ j < 16
        · rw [if_pos hj, if_pos ⟨by omega, hj.2⟩]
        · rw [if_neg hj, if_neg (by omega)]

theorem offs_fold_fail (table : List Nat) :
    ∀ (i j : Nat), j < i →
      (∀ k < j, (table.getD k 0 : Int) ≤ tinf_cap table k) →
      tinf_cap table j < (table.getD j 0 : Int) →
      ((List.range i).foldl (fun acc i =>
      match acc with
      | none => none
      | some (offs, sum, max) =>
        let c := table.getD i 0
        if max < c then none
        else some (offs.set i sum, sum + c, 2 * (max - c)))
        (some (List.replicate 16 0, 0, 1))) = none := by
  intro i
  induction i with
  | zero => intro j hj; omega
  | succ i ih =>
    intro j hj hpass hfail
    rw [List.range_succ, List.foldl_append]
    by_cases hji : j < i
    · rw [ih j hji hpass hfail]
      exact offs_fold_none table [i]
    · have hje : j = i := by omega
      subst hje
      obtain ⟨hcap, offs, hfold, _, _⟩ := offs_fold_pass table j hpass
      rw [hfold]
      simp only [List.foldl_cons, List.foldl_nil]
      rw [if_pos (by omega : (tinf_cap table j).toNat < table.getD j 0)]

theorem tinf_build_offs_pass (table : List Nat)
    (h : ∀ j < 16, (table.getD j 0 : Int) ≤ tinf_cap table j) :
    0 ≤ tinf_cap table 16 ∧
    ∃ offs : List Nat,
      tinf_build_offs table =
        some (offs, tinf_sum_below table 16, (tinf_cap table 16).toNat) ∧
      offs.length = 16 ∧
      (∀ j < 16, offs.getD j 0 = tinf_sum_below table j) := by
  obtain ⟨hcap, offs, hfold, hlen, hget⟩ := offs_fold_pass table 16 h
  refine ⟨hcap, offs, ?_, hlen, ?_⟩
  · simp only [tinf_build_offs]
    exact hfold
  · intro j hj
    rw [hget j, if_pos ⟨hj, hj⟩]

theorem tinf_build_offs_fail (table : List Nat)
    (h : ¬∀ j < 16, (table.getD j 0 : Int) ≤ tinf_cap table j) :
    tinf_build_offs table = none := by
  push_neg at h
  have hex : ∃ j, j < 16 ∧ tinf_cap table j < (table.getD j 0 : Int) := by
    obtain ⟨j, hj1, hj2⟩ := h
    exact ⟨j, hj1, hj2⟩
  classical
  have hfind := Nat.find_spec hex
  simp only [tinf_build_offs]
  refine offs_fold_fail table 16 (Nat.find hex) hfind.1 ?_ hfind.2
  intro k hk
  by_contra hc
  push_neg at hc
  exact Nat.find_min hex hk ⟨by omega, hc⟩

theorem countP_or_split (L : List Nat) (p q r : Nat → Bool)
    (h : ∀ l ∈ L, r l = (p l || q l)) (hd : ∀ l ∈ L, ¬(p l = true ∧ q l = true)) :
    L.countP r = L.countP p + L.countP q := by
  induction L with
  | nil => simp
  | cons a L ih =>
    simp only [List.countP_cons]
    rw [ih (fun l hl => h l (List.mem_cons_of_mem a hl))
      (fun l hl => hd l (List.mem_cons_of_mem a hl))]
    have ha := h a (List.mem_cons_self a L)
    have hda := hd a (List.mem_cons_self a L)
    cases hp : p a <;> cases hq : q a <;> rw [hp, hq] at ha hda <;>
      simp only [Bool.or_self, Bool.or_false, Bool.false_or, Bool.or_true,
        Bool.true_or] at ha
    · rw [ha]
      simp [Nat.add_assoc, Nat.add_comm, Nat.add_left_comm]
    · rw [ha]
      simp [Nat.add_assoc, Nat.add_comm, Nat.add_left_comm]
    · rw [ha]
      simp [Nat.add_assoc, Nat.add_comm, Nat.add_left_comm]
    · exact absurd ⟨rfl, rfl⟩ hda

theorem sum_below_countP (L : List Nat) (table : List Nat)
    (h0 : table.getD 0 0 = 0)
    (hcnt : ∀ j, j ≠ 0 → table.getD j 0 = spec_count L j) :
    ∀ i, tinf_sum_below table i =
      L.countP (fun l => decide (l ≠ 0 ∧ l < i)) := by
  intro i
  induction i with
  | zero =>
    show 0 = _
    symm
    rw [List.countP_eq_zero]
    intro a _
    simp
  | succ i ih =>
    show tinf_sum_below table i + table.getD i 0 = _
    rw [ih]
    by_cases hi0 : i = 0
    · subst hi0
      rw [h0]
      have e1 : L.countP (fun l => decide (l ≠ 0 ∧ l < 0)) = 0 := by
        rw [List.countP_eq_zero]
        intro a _
        simp
      have e2 : L.countP (fun l => decide (l ≠ 0 ∧ l < 0 + 1)) = 0 := by
        rw [List.countP_eq_zero]
        intro a _
        simp
      omega
    · rw [hcnt i hi0]
      have hsplit := countP_or_split L
        (fun l => decide (l ≠ 0 ∧ l < i)) (fun l => decide (l = i))
        (fun l => decide (l ≠ 0 ∧ l < i + 1))
        (by
          intro l _
          have hiff : (l ≠ 0 ∧ l < i + 1) ↔ ((l ≠ 0 ∧ l < i) ∨ l = i) := by
            constructor
            · intro hx
              by_cases hli : l < i
              · exact Or.inl ⟨hx.1, hli⟩
              · right
                omega
            · intro hx
              rcases hx with hx | hx
              · exact ⟨hx.1, by omega⟩
              · subst hx
                exact ⟨hi0, by omega⟩
          show decide (l ≠ 0 ∧ l < i + 1) =
            (decide (l ≠ 0 ∧ l < i) || decide (l = i))
          by_cases hA : l ≠ 0 ∧ l < i
          · rw [decide_eq_true hA, decide_eq_true (hiff.mpr (Or.inl hA)),
              Bool.true_or]
          · by_cases hB : l = i
            · rw [decide_eq_true hB, decide_eq_true (hiff.mpr (Or.inr hB)),
                Bool.or_true]
            · rw [decide_eq_false hA, decide_eq_false hB,
                decide_eq_false (fun hx => (hiff.mp hx).elim hA hB)]
              rfl)
        (by
          intro l _ hcontra
          obtain ⟨hp, hq⟩ := hcontra
          simp at hp hq
          omega)
      rw [hsplit]
      rfl

theorem spec_sum_eq_countP16 (L : List Nat) (hL : ∀ l ∈ L, l ≤ 15) :
    spec_sum L = L.countP (fun l => decide (l ≠ 0 ∧ l < 16)) := by
  unfold spec_sum
  apply List.countP_congr
  intro a ha
  have := hL a ha
  constructor
  · intro h
    simp at h ⊢
    omega
  · intro h
    simp at h ⊢
    omega

theorem cap_of_zero (table : List Nat) :
    ∀ i, (∀ j < i, table.getD j 0 = 0) → tinf_cap table i = 2 ^ i := by
  intro i
  induction i with
  | zero => intro _; rfl
  | succ i ih =>
    intro h
    show 2 * (tinf_cap table i - (table.getD i 0 : Int)) = 2 ^ (i + 1)
    rw [ih (fun j hj => h j (by omega)), h i (by omega)]
    push_cast
    ring

theorem cap_of_degenerate (table : List Nat) (h0 : table.getD 0 0 = 0)
    (h1 : table.getD 1 0 = 1) (h2 : ∀ j, 2 ≤ j → table.getD j 0 = 0) :
    tinf_cap table 1 = 2 ∧ ∀ i, 2 ≤ i → tinf_cap table i = 2 ^ (i - 1) := by
  have hc1 : tinf_cap table 1 = 2 := by
    show 2 * (tinf_cap table 0 - (table.getD 0 0 : Int)) = 2
    rw [h0]
    show 2 * ((1 : Int) - ((0 : Nat) : Int)) = 2
    decide
  refine ⟨hc1, ?_⟩
  intro i
  induction i with
  | zero => omega
  | succ i ih =>
    intro hi
    by_cases hi1 : i = 1
    · subst hi1
      show 2 * (tinf_cap table 1 - (table.getD 1 0 : Int)) = 2 ^ (2 - 1)
      rw [hc1, h1]
      decide
    · have hi2 : 2 ≤ i := by omega
      show 2 * (tinf_cap table i - (table.getD i 0 : Int)) = 2 ^ (i + 1 - 1)
      rw [ih hi2, h2 i hi2]
      have : i + 1 - 1 = (i - 1) + 1 := by omega
      rw [this, pow_succ]
      push_cast
      ring

theorem tinf_build_tree_unfold (t : TinfTree) (L : List Nat) (num : Nat) :
    tinf_build_tree t L num =
      match tinf_build_offs ((tinf_tally L num).1.set 0 0) with
      | none => (TINF_DATA_ERROR,
          { t with table := (tinf_tally L num).1.set 0 0
                 , max_sym := (tinf_tally L num).2 })
      | some (_offs, sum, mx) =>
        if (1 < sum ∧ 0 < mx) ∨
            (sum = 1 ∧ ((tinf_tally L num).1.set 0 0).getD 1 0 ≠ 1) then
          (TINF_DATA_ERROR,
           { t with table := (tinf_tally L num).1.set 0 0
                  , max_sym := (tinf_tally L num).2 })
        else
          if sum = 1 then
            (TINF_OK,
             { table := ((tinf_tally L num).1.set 0 0).set 1 2
             , trans := (tinf_fill_trans L num t.trans _offs).1.set 1
                 ((tinf_tally L num).2 + 1).toNat
             , max_sym := (tinf_tally L num).2 })
          else
            (TINF_OK,
             { table := (tinf_tally L num).1.set 0 0
             , trans := (tinf_fill_trans L num t.trans _offs).1
             , max_sym := (tinf_tally L num).2 }) := rfl

theorem build_tree_fst_some (t : TinfTree) (L : List Nat) (num : Nat)
    (offs : List Nat) (S M : Nat)
    (hfold : tinf_build_offs ((tinf_tally L num).1.set 0 0) =
      some (offs, S, M)) :
    (tinf_build_tree t L num).1 =
      if (1 < S ∧ 0 < M) ∨
          (S = 1 ∧ ((tinf_tally L num).1.set 0 0).getD 1 0 ≠ 1)
      then TINF_DATA_ERROR else TINF_OK := by
  have hu := tinf_build_tree_unfold t L num
  rw [hfold] at hu
  rw [hu]
  show (if (1 < S ∧ 0 < M) ∨
          (S = 1 ∧ ((tinf_tally L num).1.set 0 0).getD 1 0 ≠ 1) then
        (TINF_DATA_ERROR,
         { t with table := (tinf_tally L num).1.set 0 0
                , max_sym := (tinf_tally L num).2 })
      else
        if S = 1 then
          (TINF_OK,
           { table := ((tinf_tally L num).1.set 0 0).set 1 2
           , trans := (tinf_fill_trans L num t.trans offs).1.set 1
               ((tinf_tally L num).2 + 1).toNat
           , max_sym := (tinf_tally L num).2 })
        else
          (TINF_OK,
           { table := (tinf_tally L num).1.set 0 0
           , trans := (tinf_fill_trans L num t.trans offs).1
           , max_sym := (tinf_tally L num).2 })).1 =
    if (1 < S ∧ 0 < M) ∨
        (S = 1 ∧ ((tinf_tally L num).1.set 0 0).getD 1 0 ≠ 1)
    then TINF_DATA_ERROR else TINF_OK
  by_cases hbad : (1 < S ∧ 0 < M) ∨
      (S = 1 ∧ ((tinf_tally L num).1.set 0 0).getD 1 0 ≠ 1)
  · rw [if_pos hbad, if_pos hbad]
  · rw [if_neg hbad, if_neg hbad]
    split <;> rfl

theorem build_tree_fst_none (t : TinfTree) (L : List Nat) (num : Nat)
    (hnone : tinf_build_offs ((tinf_tally L num).1.set 0 0) = none) :
    (tinf_build_tree t L num).1 = TINF_DATA_ERROR := by
  have hu := tinf_build_tree_unfold t L num
  rw [hnone] at hu
  rw [hu]

/-- C3: for a length vector with entries at most 15, tinf_build_tree returns
TINF_OK exactly for the legal vectors of the claim (empty code, a single
length-1 code, or an over-subscription-free complete code), and otherwise
returns TINF_DATA_ERROR. -/
theorem tinf_c3_build_tree_legality (t : TinfTree) (L : List Nat)
    (hL : ∀ l ∈ L, l ≤ 15) :
    ((tinf_build_tree t L L.length).1 = TINF_OK ↔ legal_lengths L) ∧
    ((tinf_build_tree t L L.length).1 = TINF_OK ∨
     (tinf_build_tree t L L.length).1 = TINF_DATA_ERROR) := by
  have h0 : ((tinf_tally L L.length).1.set 0 0).getD 0 0 = 0 :=
    getD_set_self 0 (by rw [tinf_tally_length]; omega)
  have hcnt : ∀ j, j ≠ 0 →
      ((tinf_tally L L.length).1.set 0 0).getD j 0 = spec_count L j := by
    intro j hj
    rw [getD_set_ne 0 (fun h => hj h.symm), tinf_tally_count L hL j]
  have hcap : ∀ i, tinf_cap ((tinf_tally L L.length).1.set 0 0) i =
      spec_max L i := by
    intro i
    induction i with
    | zero => rfl
    | succ i ih =>
      show 2 * (tinf_cap ((tinf_tally L L.length).1.set 0 0) i -
          ((((tinf_tally L L.length).1.set 0 0).getD i 0 : Nat) : Int)) =
        2 * (spec_max L i - (if i = 0 then 0 else (spec_count L i : Int)))
      rw [ih]
      by_cases hi0 : i = 0
      · subst hi0
        rw [h0, if_pos rfl]
        simp
      · rw [hcnt i hi0, if_neg hi0]
  have hsum : tinf_sum_below ((tinf_tally L L.length).1.set 0 0) 16 =
      spec_sum L := by
    rw [sum_below_countP L _ h0 hcnt 16, ← spec_sum_eq_countP16 L hL]
  by_cases hpass : ∀ j < 16,
      ((((tinf_tally L L.length).1.set 0 0).getD j 0 : Int)) ≤
        tinf_cap ((tinf_tally L L.length).1.set 0 0) j
  · obtain ⟨hcapnn, offs, hfold, -, -⟩ := tinf_build_offs_pass _ hpass
    have hres := build_tree_fst_some t L L.length offs _ _ hfold
    rw [hsum, hcap 16, hcnt 1 (by omega)] at hres
    rw [hcap 16] at hcapnn
    rw [hres]
    refine ⟨?_, ?_⟩
    · constructor
      · intro hOK
        by_cases hbad : (1 < spec_sum L ∧ 0 < (spec_max L 16).toNat) ∨
            (spec_sum L = 1 ∧ spec_count L 1 ≠ 1)
        · rw [if_pos hbad] at hOK
          exact absurd hOK (by decide)
        · push_neg at hbad
          obtain ⟨hb1, hb2⟩ := hbad
          unfold legal_lengths
          rcases Nat.lt_or_ge (spec_sum L) 1 with hs | hs
          · left
            omega
          · rcases Nat.eq_or_lt_of_le hs with hs1 | hs1
            · right
              left
              exact ⟨hs1.symm, hb2 hs1.symm⟩
            · right
              right
              have hm0 : spec_max L 16 = 0 := by
                have h2 := hb1 hs1
                omega
              refine ⟨hs1, ?_, hm0⟩
              intro i hi hi1
              rw [← hcnt i (by omega), ← hcap i]
              exact hpass i hi
      · intro hleg
        rcases hleg with hleg | ⟨hs, hc⟩ | ⟨hs, _, hm⟩
        · rw [if_neg (by omega)]
        · rw [if_neg (by omega)]
        · rw [if_neg (by omega)]
    · by_cases hbad : (1 < spec_sum L ∧ 0 < (spec_max L 16).toNat) ∨
          (spec_sum L = 1 ∧ spec_count L 1 ≠ 1)
      · rw [if_pos hbad]
        exact Or.inr rfl
      · rw [if_neg hbad]
        exact Or.inl rfl
  · have hnone := tinf_build_offs_fail _ hpass
    have hres := build_tree_fst_none t L L.length hnone
    rw [hres]
    refine ⟨?_, Or.inr rfl⟩
    constructor
    · intro h
      exact absurd h (by decide)
    · intro hleg
      exfalso
      apply hpass
      rcases hleg with hleg | ⟨hs, hc⟩ | ⟨hs, hall, _⟩
      · have hz : ∀ j, ((tinf_tally L L.length).1.set 0 0).getD j 0 = 0 := by
          intro j
          by_cases hj0 : j = 0
          · subst hj0
            exact h0
          · rw [hcnt j hj0]
            have := count_le_sum L j hj0
            omega
        intro j hj
        rw [cap_of_zero _ j (fun k _ => hz k), hz j]
        simp only [Nat.cast_zero]
        positivity
      · have hz2 : ∀ j, 2 ≤ j →
            ((tinf_tally L L.length).1.set 0 0).getD j 0 = 0 := by
          intro j hj
          rw [hcnt j (by omega)]
          have := count_pair_le_sum L j 1 (by omega) (by omega) (by omega)
          omega
        have h1c : ((tinf_tally L L.length).1.set 0 0).getD 1 0 = 1 := by
          rw [hcnt 1 (by omega), hc]
        obtain ⟨hcap1, hcapge⟩ := cap_of_degenerate _ h0 h1c hz2
        intro j hj
        by_cases hj0 : j = 0
        · subst hj0
          rw [h0]
          show ((0 : Nat) : Int) ≤ 1
          decide
        · by_cases hj1 : j = 1
          · subst hj1
            rw [h1c, hcap1]
            decide
          · rw [hz2 j (by omega), hcapge j (by omega)]
            simp only [Nat.cast_zero]
            positivity
      · intro j hj
        by_cases hj0 : j = 0
        · subst hj0
          rw [h0]
          show ((0 : Nat) : Int) ≤ 1
          decide
        · rw [hcnt j hj0, hcap j]
          exact hall j hj (by omega)

theorem tinf_c3_witness :
    ((tinf_build_tree ⟨List.replicate 16 0, List.replicate 288 0, -1⟩ [1, 1]
        [1, 1].length).1 = TINF_OK ↔ legal_lengths [1, 1]) ∧
    ((tinf_build_tree ⟨List.replicate 16 0, List.replicate 288 0, -1⟩ [1, 1]
        [1, 1].length).1 = TINF_OK ∨
     (tinf_build_tree ⟨List.replicate 16 0, List.replicate 288 0, -1⟩ [1, 1]
        [1, 1].length).1 = TINF_DATA_ERROR) :=
  tinf_c3_build_tree_legality ⟨List.replicate 16 0, List.replicate 288 0, -1⟩
    [1, 1] (by decide)

theorem countP_range_eq_one (n i : Nat) (q : Nat → Bool) (hi : i < n)
    (hq : ∀ j, q j = true ↔ j = i) :
    (List.range n).countP q = 1 := by
  induction n with
  | zero => omega
  | succ n ih =>
    rw [List.range_succ, List.countP_append]
    by_cases hin : i = n
    · subst hin
      have h0 : (List.range i).countP q = 0 := by
        rw [List.countP_eq_zero]
        intro a ha
        rw [List.mem_range] at ha
        rw [hq]
        omega
      have h1 : List.countP q [i] = 1 := by
        simp [List.countP_cons, (hq i).mpr rfl]
      omega
    · have hqn : q n = false := by
        rw [← Bool.not_eq_true, hq]
        omega
      have h1 : List.countP q [n] = 0 := by
        simp [List.countP_cons, hqn]
      rw [ih (by omega), h1]

theorem filter_range_single (n i : Nat) (q : Nat → Bool) (hi : i < n)
    (hq : ∀ j, q j = true ↔ j = i) :
    (List.range n).filter q = [i] := by
  induction n with
  | zero => omega
  | succ n ih =>
    rw [List.range_succ, List.filter_append]
    by_cases hin : i = n
    · subst hin
      have h0 : (List.range i).filter q = [] := by
        rw [List.filter_eq_nil_iff]
        intro a ha
        rw [List.mem_range] at ha
        rw [hq]
        omega
      have h1 : List.filter q [i] = [i] := by
        simp [List.filter, (hq i).mpr rfl]
      rw [h0, h1]
      rfl
    · have hqn : q n = false := by
        rw [← Bool.not_eq_true, hq]
        omega
      have h1 : List.filter q [n] = [] := by
        simp [List.filter, hqn]
      rw [ih (by omega), h1]
      exact List.append_nil [i]

theorem fill_trans_fold_length (lengths : List Nat) :
    ∀ (is : List Nat) (trans offs : List Nat),
      ((is.foldl (fun p i =>
        let l := lengths.getD i 0
        if l ≠ 0 then (p.1.set (p.2.getD l 0) i, p.2.set l (p.2.getD l 0 + 1))
        else p) (trans, offs)).1).length = trans.length := by
  intro is
  induction is with
  | nil => intro trans offs; rfl
  | cons i is ih =>
    intro trans offs
    simp only [List.foldl_cons]
    by_cases hl : lengths.getD i 0 ≠ 0
    · show ((is.foldl _ (if lengths.getD i 0 ≠ 0 then
          (trans.set (offs.getD (lengths.getD i 0) 0) i,
           offs.set (lengths.getD i 0) (offs.getD (lengths.getD i 0) 0 + 1))
          else (trans, offs))).1).length = trans.length
      rw [if_pos hl, ih]
      exact List.length_set trans _ _
    · show ((is.foldl _ (if lengths.getD i 0 ≠ 0 then
          (trans.set (offs.getD (lengths.getD i 0) 0) i,
           offs.set (lengths.getD i 0) (offs.getD (lengths.getD i 0) 0 + 1))
          else (trans, offs))).1).length = trans.length
      rw [if_neg hl, ih]

theorem tinf_fill_trans_length (lengths : List Nat) (num : Nat)
    (trans offs : List Nat) :
    (tinf_fill_trans lengths num trans offs).1.length = trans.length := by
  simp only [tinf_fill_trans]
  exact fill_trans_fold_length lengths (List.range num) trans offs

theorem build_tree_degenerate_eq (t : TinfTree) (L : List Nat) (num : Nat)
    (offs : List Nat) (M : Nat)
    (hfold : tinf_build_offs ((tinf_tally L num).1.set 0 0) =
      some (offs, 1, M))
    (h1 : ((tinf_tally L num).1.set 0 0).getD 1 0 = 1) :
    tinf_build_tree t L num =
      (TINF_OK,
       { table := ((tinf_tally L num).1.set 0 0).set 1 2
       , trans := (tinf_fill_trans L num t.trans offs).1.set 1
           ((tinf_tally L num).2 + 1).toNat
       , max_sym := (tinf_tally L num).2 }) := by
  have hu := tinf_build_tree_unfold t L num
  rw [hfold] at hu
  rw [hu]
  show (if (1 < 1 ∧ 0 < M) ∨
          (1 = 1 ∧ ((tinf_tally L num).1.set 0 0).getD 1 0 ≠ 1) then
        (TINF_DATA_ERROR,
         { t with table := (tinf_tally L num).1.set 0 0
                , max_sym := (tinf_tally L num).2 })
      else
        if (1 : Nat) = 1 then
          (TINF_OK,
           { table := ((tinf_tally L num).1.set 0 0).set 1 2
           , trans := (tinf_fill_trans L num t.trans offs).1.set 1
               ((tinf_tally L num).2 + 1).toNat
           , max_sym := (tinf_tally L num).2 })
        else
          (TINF_OK,
           { table := (tinf_tally L num).1.set 0 0
           , trans := (tinf_fill_trans L num t.trans offs).1
           , max_sym := (tinf_tally L num).2 })) = _
  have hnotbad : ¬((1 < 1 ∧ 0 < M) ∨
      (1 = 1 ∧ ((tinf_tally L num).1.set 0 0).getD 1 0 ≠ 1)) := by
    rintro (⟨h, _⟩ | ⟨_, h⟩)
    · omega
    · exact h h1
  rw [if_neg hnotbad, if_pos rfl]

theorem decode_degenerate_step (tr : TinfTree) (d : TinfData) (f s : Nat)
    (ht1 : tr.table.getD 1 0 = 2) (hs : tr.trans.getD 1 0 = s)
    (hbc : 1 ≤ d.bitcount) (htag : d.tag % 2 = 1) :
    tinf_decode_symbol d tr (f + 1) =
      (some s, { d with tag := d.tag >>> 1, bitcount := d.bitcount - 1 }) := by
  have hr : tinf_getbits d 1 =
      (1, { d with tag := d.tag >>> 1, bitcount := d.bitcount - 1 }) := by
    unfold tinf_getbits
    have hrf : tinf_refill d 1 = d := by
      unfold tinf_refill
      exact tinf_refill_go_of_ge hbc 1
    rw [hrf]
    unfold tinf_getbits_no_refill
    rw [show d.tag &&& (2 ^ 1 - 1) = 1 by
      rw [Nat.and_pow_two_sub_one_eq_mod, pow_one]
      exact htag]
  simp only [tinf_decode_symbol, tinf_decode_symbol_go, hr, Nat.zero_add,
    Nat.add_zero, mul_zero, zero_add, Nat.cast_one, Nat.cast_ofNat, ht1]
  rw [if_neg (by norm_num : ¬(0 : Int) ≤ 1 - 2)]
  rw [show ((2 : Int) + (1 - 2)).toNat = 1 by norm_num, hs]

theorem block_step_range_error (d : TinfData) (lt dt : TinfTree) (fuel : Nat)
    (sym : Nat) (d1 : TinfData)
    (hds : tinf_decode_symbol d lt fuel = (some sym, d1))
    (hov : ¬d1.overflow) (hge : 257 ≤ sym)
    (hmax : (sym : Int) > lt.max_sym) :
    tinf_inflate_block_step d lt dt fuel = (some (some TINF_DATA_ERROR), d1) := by
  simp only [tinf_inflate_block_step, hds]
  rw [if_neg hov, if_neg (by omega : ¬sym = 256),
    if_neg (by omega : ¬sym < 256),
    if_pos (Or.inl hmax)]

/-- C8: a length vector with exactly one non-zero length, which is 1, makes
tinf_build_tree succeed and plant the degenerate patch: the count table
records 2 codes of length 1 and trans[1] holds max_sym + 1 (max_sym being the
single coded symbol's index), so decoding the unused one-bit code (bit 1)
yields the out-of-range symbol max_sym + 1, and a decoded symbol above
max_sym in the range-checked branch of the block symbol loop makes the step
return TINF_DATA_ERROR. -/
theorem tinf_c8_degenerate_tree (t : TinfTree) (L : List Nat) (i : Nat)
    (htr : 2 ≤ t.trans.length) (hi : i < L.length)
    (h1 : L.getD i 0 = 1) (h0 : ∀ j < L.length, j ≠ i → L.getD j 0 = 0) :
    (tinf_build_tree t L L.length).1 = TINF_OK ∧
    (tinf_build_tree t L L.length).2.max_sym = (i : Int) ∧
    (tinf_build_tree t L L.length).2.table.getD 1 0 = 2 ∧
    (tinf_build_tree t L L.length).2.trans.getD 1 0 = i + 1 ∧
    (∀ (d : TinfData) (fuel : Nat), 1 ≤ d.bitcount → d.tag % 2 = 1 →
      1 ≤ fuel →
      (tinf_decode_symbol d (tinf_build_tree t L L.length).2 fuel).1 =
        some (i + 1)) ∧
    (∀ (d d1 : TinfData) (dt : TinfTree) (fuel sym : Nat),
      tinf_decode_symbol d (tinf_build_tree t L L.length).2 fuel =
        (some sym, d1) →
      ¬d1.overflow = true → 257 ≤ sym →
      (sym : Int) > (tinf_build_tree t L L.length).2.max_sym →
      tinf_inflate_block_step d (tinf_build_tree t L L.length).2 dt fuel =
        (some (some TINF_DATA_ERROR), d1)) := by
  have h0' : ∀ j, j ≠ i → L.getD j 0 = 0 := by
    intro j hj
    by_cases hjl : j < L.length
    · exact h0 j hjl hj
    · exact List.getD_eq_default _ _ (by omega)
  have hL : ∀ l ∈ L, l ≤ 15 := by
    intro l hl
    obtain ⟨j, hj, rfl⟩ := List.mem_iff_getElem.mp hl
    by_cases hji : j = i
    · subst hji
      have := h1
      rw [List.getD_eq_getElem L 0 hj] at this
      omega
    · have := h0' j hji
      rw [List.getD_eq_getElem L 0 hj] at this
      omega
  have hq1 : ∀ j, (decide (L.getD j 0 = 1)) = true ↔ j = i := by
    intro j
    simp only [decide_eq_true_eq]
    constructor
    · intro h
      by_contra hne
      rw [h0' j hne] at h
      omega
    · intro h
      subst h
      exact h1
  have hqne : ∀ j, (decide (L.getD j 0 ≠ 0)) = true ↔ j = i := by
    intro j
    simp only [decide_eq_true_eq]
    constructor
    · intro h
      by_contra hne
      exact h (h0' j hne)
    · intro h
      subst h
      rw [h1]
      omega
  have hcnt1 : spec_count L 1 = 1 := by
    rw [spec_count, ← countP_range_getD L (fun l => decide (l = 1))]
    exact countP_range_eq_one L.length i _ hi hq1
  have hsum1 : spec_sum L = 1 := by
    rw [spec_sum, ← countP_range_getD L (fun l => decide (l ≠ 0))]
    exact countP_range_eq_one L.length i _ hi hqne
  have ht0 : ((tinf_tally L L.length).1.set 0 0).getD 0 0 = 0 :=
    getD_set_self 0 (by rw [tinf_tally_length]; omega)
  have ht1 : ((tinf_tally L L.length).1.set 0 0).getD 1 0 = 1 := by
    rw [getD_set_ne 0 (by omega), tinf_tally_count L hL 1]
    exact hcnt1
  have htv : ∀ j, 2 ≤ j →
      ((tinf_tally L L.length).1.set 0 0).getD j 0 = 0 := by
    intro j hj
    rw [getD_set_ne 0 (by omega), tinf_tally_count L hL j]
    rw [spec_count, ← countP_range_getD L (fun l => decide (l = j))]
    rw [List.countP_eq_zero]
    intro a ha
    rw [List.mem_range] at ha
    simp only [decide_eq_true_eq]
    by_cases hai : a = i
    · subst hai
      rw [h1]
      omega
    · rw [h0' a hai]
      omega
  obtain ⟨hcap1, hcapge⟩ := cap_of_degenerate _ ht0 ht1 htv
  have hpass : ∀ j < 16,
      ((((tinf_tally L L.length).1.set 0 0).getD j 0 : Int)) ≤
        tinf_cap ((tinf_tally L L.length).1.set 0 0) j := by
    intro j hj
    by_cases hj0 : j = 0
    · subst hj0
      rw [ht0]
      show ((0 : Nat) : Int) ≤ 1
      decide
    · by_cases hj1 : j = 1
      · subst hj1
        rw [ht1, hcap1]
        decide
      · rw [htv j (by omega), hcapge j (by omega)]
        simp only [Nat.cast_zero]
        positivity
  obtain ⟨-, offs, hfold, -, -⟩ := tinf_build_offs_pass _ hpass
  have hsb : tinf_sum_below ((tinf_tally L L.length).1.set 0 0) 16 = 1 := by
    rw [sum_below_countP L _ ht0 (fun j hj => by
        rw [getD_set_ne 0 (fun h => hj h.symm)]
        exact tinf_tally_count L hL j) 16,
      ← spec_sum_eq_countP16 L hL]
    exact hsum1
  rw [hsb] at hfold
  have hmax : (tinf_tally L L.length).2 = (i : Int) := by
    rw [tinf_tally_snd]
    rw [filter_range_single L.length i _ hi hqne]
    rfl
  have hB := build_tree_degenerate_eq t L L.length offs _ hfold ht1
  have htlen : 1 < ((tinf_tally L L.length).1.set 0 0).length := by
    rw [List.length_set, tinf_tally_length]
    omega
  have htrlen : 1 < (tinf_fill_trans L L.length t.trans offs).1.length := by
    rw [tinf_fill_trans_length]
    omega
  have c1 : (tinf_build_tree t L L.length).1 = TINF_OK := by
    rw [hB]
  have c2 : (tinf_build_tree t L L.length).2.max_sym = (i : Int) := by
    rw [hB]
    exact hmax
  have c3 : (tinf_build_tree t L L.length).2.table.getD 1 0 = 2 := by
    rw [hB]
    exact getD_set_self 2 htlen
  have c4 : (tinf_build_tree t L L.length).2.trans.getD 1 0 = i + 1 := by
    rw [hB]
    show ((tinf_fill_trans L L.length t.trans offs).1.set 1
      ((tinf_tally L L.length).2 + 1).toNat).getD 1 0 = i + 1
    rw [getD_set_self _ htrlen, hmax]
    omega
  refine ⟨c1, c2, c3, c4, ?_, ?_⟩
  · intro d fuel hbc htag hfuel
    obtain ⟨f, rfl⟩ : ∃ f, fuel = f + 1 := ⟨fuel - 1, by omega⟩
    rw [decode_degenerate_step ((tinf_build_tree t L L.length).2) d f (i + 1)
      c3 c4 hbc htag]
  · intro d d1 dt fuel sym hds hov hge hmax2
    exact block_step_range_error d _ dt fuel sym d1 hds hov hge hmax2

theorem tinf_c8_witness :
    (tinf_build_tree (⟨List.replicate 16 0, List.replicate 288 0, -1⟩ : TinfTree) ((List.replicate 258 0).set 257 1) ((List.replicate 258 0).set 257 1).length).1 = TINF_OK ∧
    (tinf_build_tree (⟨List.replicate 16 0, List.replicate 288 0, -1⟩ : TinfTree) ((List.replicate 258 0).set 257 1) ((List.replicate 258 0).set 257 1).length).2.max_sym = ((257 : Nat) : Int) ∧
    (tinf_build_tree (⟨List.replicate 16 0, List.replicate 288 0, -1⟩ : TinfTree) ((List.replicate 258 0).set 257 1) ((List.replicate 258 0).set 257 1).length).2.table.getD 1 0 = 2 ∧
    (tinf_build_tree (⟨List.replicate 16 0, List.replicate 288 0, -1⟩ : TinfTree) ((List.replicate 258 0).set 257 1) ((List.replicate 258 0).set 257 1).length).2.trans.getD 1 0 = 257 + 1 ∧
    (∀ (d : TinfData) (fuel : Nat), 1 ≤ d.bitcount → d.tag % 2 = 1 →
      1 ≤ fuel →
      (tinf_decode_symbol d (tinf_build_tree (⟨List.replicate 16 0, List.replicate 288 0, -1⟩ : TinfTree) ((List.replicate 258 0).set 257 1) ((List.replicate 258 0).set 257 1).length).2 fuel).1 = some (257 + 1)) ∧
    (∀ (d d1 : TinfData) (dt : TinfTree) (fuel sym : Nat),
      tinf_decode_symbol d (tinf_build_tree (⟨List.replicate 16 0, List.replicate 288 0, -1⟩ : TinfTree) ((List.replicate 258 0).set 257 1) ((List.replicate 258 0).set 257 1).length).2 fuel = (some sym, d1) →
      ¬d1.overflow = true → 257 ≤ sym →
      (sym : Int) > (tinf_build_tree (⟨List.replicate 16 0, List.replicate 288 0, -1⟩ : TinfTree) ((List.replicate 258 0).set 257 1) ((List.replicate 258 0).set 257 1).length).2.max_sym →
      tinf_inflate_block_step d (tinf_build_tree (⟨List.replicate 16 0, List.replicate 288 0, -1⟩ : TinfTree) ((List.replicate 258 0).set 257 1) ((List.replicate 258 0).set 257 1).length).2 dt fuel =
        (some (some TINF_DATA_ERROR), d1)) :=
  tinf_c8_degenerate_tree (⟨List.replicate 16 0, List.replicate 288 0, -1⟩ : TinfTree) ((List.replicate 258 0).set 257 1) 257
    (by decide) (by decide) (by decide) (by decide)

end Tinf
